import Mathlib

/-!
# debindices: parser for Debian/Ubuntu binary package indices

A shallow embedding of `deb.go` (package `debindices`): the `Fields` table, the
`Package` record with its setters, and `Parse`, followed by theorems about them.

Conventions of the embedding.

* The reader handed to `Parse` is represented by the list of tokens that the
  successive calls of `bufio.Scanner.Scan` deliver (one string per line, line
  terminator already stripped); the `for s.Scan()` loop is a recursion over
  that list.
* Go's named results `(packages map[string]Package, err error)` are the two
  components of `ParseResult`; `none` stands for `nil`.
* `map[string]Package` is an association list with at most one entry per key.
* A compiled pattern `(?i)^F: (.+)$` is represented by its matching function
  `matchField F`, which returns the first capture group.
* Go's `int` is taken to be 64 bits wide (`intSize`).
-/

set_option linter.dupNamespace false

namespace Debindices

/-! ## Data model -/

/-- Supported fields (`var Fields`). -/
def Fields : List String :=
  ["Package", "Priority", "Section", "Installed-Size", "Maintainer", "Architecture",
   "Version", "Depends", "Filename", "Size", "MD5sum", "SHA1", "SHA256"]

/-- Parsed data of one stanza (`type Package struct`). -/
structure Package where
  Package : String := ""
  Priority : String := ""
  Section : String := ""
  InstalledSize : Int := 0
  Maintainer : String := ""
  Architecture : String := ""
  Version : String := ""
  Depends : String := ""
  Filename : String := ""
  Size : Int := 0
  MD5sum : String := ""
  SHA1 : String := ""
  SHA256 : String := ""
deriving DecidableEq, Repr

/-- The two sentinel errors a `*strconv.NumError` can wrap. -/
inductive NumErrKind where
  | ErrSyntax
  | ErrRange
deriving DecidableEq, Repr

/-- Error values that `Parse` can return: a message built by `errors.New`, or the
`*strconv.NumError` of a failed `strconv.Atoi` (function name, offending text, cause). -/
inductive Error where
  | errorsNew (msg : String)
  | numError (func : String) (num : String) (err : NumErrKind)
deriving DecidableEq, Repr

/-- The Go type `map[string]Package`. -/
abbrev PackageMap := List (String × Package)

/-- Key test `_, ok := packages[key]`. -/
def mapHas (m : PackageMap) (key : String) : Bool :=
  m.any (fun e => e.1 == key)

/-- Map read `packages[key]` with its presence flag. -/
def mapGet (m : PackageMap) (key : String) : Option Package :=
  (m.find? (fun e => e.1 == key)).map Prod.snd

/-- Map write `packages[key] = p`: any entry already stored under `key` is replaced. -/
def mapSet (m : PackageMap) (key : String) (p : Package) : PackageMap :=
  (key, p) :: m.filter (fun e => !(e.1 == key))

/-- Named results of `Parse`. -/
structure ParseResult where
  packages : Option PackageMap
  err : Option Error
deriving DecidableEq, Repr

/-! ## Setters -/

def Package.setPackage (p : Debindices.Package) (name : String) : Debindices.Package := { p with Package := name }
def Package.setPriority (p : Debindices.Package) (priority : String) : Debindices.Package := { p with Priority := priority }
def Package.setSection (p : Debindices.Package) (sec : String) : Debindices.Package := { p with Section := sec }
def Package.setInstalledSize (p : Debindices.Package) (size : Int) : Debindices.Package := { p with InstalledSize := size }
def Package.setMaintainer (p : Debindices.Package) (maintainer : String) : Debindices.Package :=
  { p with Maintainer := maintainer }
def Package.setArchitecture (p : Debindices.Package) (architecture : String) : Debindices.Package :=
  { p with Architecture := architecture }
def Package.setVersion (p : Debindices.Package) (version : String) : Debindices.Package := { p with Version := version }
def Package.setDepends (p : Debindices.Package) (depends : String) : Debindices.Package := { p with Depends := depends }
def Package.setFilename (p : Debindices.Package) (filename : String) : Debindices.Package := { p with Filename := filename }
def Package.setSize (p : Debindices.Package) (size : Int) : Debindices.Package := { p with Size := size }
def Package.setMD5sum (p : Debindices.Package) (md5sum : String) : Debindices.Package := { p with MD5sum := md5sum }
def Package.setSHA1 (p : Debindices.Package) (sha1 : String) : Debindices.Package := { p with SHA1 := sha1 }
def Package.setSHA256 (p : Debindices.Package) (sha256 : String) : Debindices.Package := { p with SHA256 := sha256 }

/-! ## Library functions used by `Parse` -/

/-- Go `strings.Join(elems, sep)`. -/
def stringsJoin : List String → String → String
  | [], _ => ""
  | [a], _ => a
  | a :: b :: rest, sep => a ++ sep ++ stringsJoin (b :: rest) sep

/-- Go `strings.Contains(s, substr)`: `substr` occurs somewhere inside `s`. -/
def stringsContains (s substr : String) : Bool :=
  s.data.tails.any (fun t => substr.data.isPrefixOf t)

/-- Width of Go's `int` (`strconv.IntSize`). -/
def intSize : Nat := 64

/-- Digit loop of `strconv.ParseUint(s, 10, 64)`: `n` is the value accumulated so far.
A character that is not a decimal digit is a syntax error; a value that leaves the
64-bit range is a range error. The first offence met from the left decides. -/
def parseUintLoop : Nat → List Char → Except NumErrKind Nat
  | n, [] => .ok n
  | n, c :: cs =>
    if c.isDigit then
      if n ≥ (2 ^ 64 - 1) / 10 + 1 then .error .ErrRange
      else
        let n1 := n * 10 + (c.toNat - 48)
        if n1 > 2 ^ 64 - 1 then .error .ErrRange else parseUintLoop n1 cs
    else .error .ErrSyntax

/-- Sign handling of `strconv.Atoi`: a leading `+` or `-` is split off; the flag tells
whether it was `-`. -/
def splitSign : List Char → Bool × List Char
  | '-' :: cs => (true, cs)
  | '+' :: cs => (false, cs)
  | cs => (false, cs)

/-- Go `strconv.Atoi(s)`: an optional sign followed by at least one decimal digit,
with a value that fits `int`. Errors are `*NumError` values with `Func = "Atoi"`. -/
def Atoi (s : String) : Except Error Int :=
  match splitSign s.data with
  | (neg, body) =>
    if body.isEmpty then .error (.numError "Atoi" s .ErrSyntax)
    else
      match parseUintLoop 0 body with
      | .error k => .error (.numError "Atoi" s k)
      | .ok un =>
        if !neg && un ≥ 2 ^ (intSize - 1) then .error (.numError "Atoi" s .ErrRange)
        else if neg && un > 2 ^ (intSize - 1) then .error (.numError "Atoi" s .ErrRange)
        else .ok (if neg then -(un : Int) else (un : Int))

/-- Case folding of the regexp engine for a literal `r` under `(?i)`: the runes on
the `unicode.SimpleFold` orbit of `r`. For an ASCII letter these are its two cases,
plus U+212A (Kelvin sign) for `k` and U+017F (long s) for `s`; any other ASCII
character is alone on its orbit. Only ASCII literals occur in the patterns. -/
def simpleFoldOrbit (r : Char) : List Char :=
  if r.isAlpha then
    [r.toLower, r.toUpper] ++
      (if r.toLower = 'k' then [Char.ofNat 0x212A]
       else if r.toLower = 's' then [Char.ofNat 0x17F] else [])
  else [r]

/-- Match the literal characters `pat` case-insensitively at the start of `text`;
the result is the rest of `text` behind the match. -/
def matchLiteralFold : List Char → List Char → Option (List Char)
  | [], text => some text
  | _ :: _, [] => none
  | r :: pat, c :: text =>
    if c ∈ simpleFoldOrbit r then matchLiteralFold pat text else none

/-- The pattern `regexp.MustCompile(fmt.Sprintf("(?i)^%s: (.+)$", field))` applied to
`curStr` by `FindAllStringSubmatch(curStr, -1)`: `none` when `len(match) == 0`, and
otherwise `match[0][1]`. The pattern is anchored at both ends of the text, so the
whole of `curStr` is the field name in any letter case, then `": "`, then one or
more characters other than a line feed (the capture). -/
def matchField (field curStr : String) : Option String :=
  match matchLiteralFold (field.data ++ [':', ' ']) curStr.data with
  | none => none
  | some rest =>
    if rest ≠ [] ∧ rest.all (fun c => c ≠ Char.ofNat 10) then some (String.mk rest) else none

/-! ## Parse -/

/-- The `switch field` statement of the loop body: store `val` in the attribute that
belongs to `field`. The two numeric fields go through `strconv.Atoi`, whose error
ends the call. -/
def setField (field val : String) (p : Package) : Except Error Package :=
  if field = "Package" then .ok (p.setPackage val)
  else if field = "Priority" then .ok (p.setPriority val)
  else if field = "Section" then .ok (p.setSection val)
  else if field = "Installed-Size" then
    match Atoi val with
    | .error e => .error e
    | .ok valInt => .ok (p.setInstalledSize valInt)
  else if field = "Maintainer" then .ok (p.setMaintainer val)
  else if field = "Architecture" then .ok (p.setArchitecture val)
  else if field = "Version" then .ok (p.setVersion val)
  else if field = "Depends" then .ok (p.setDepends val)
  else if field = "Filename" then .ok (p.setFilename val)
  else if field = "Size" then
    match Atoi val with
    | .error e => .error e
    | .ok valInt => .ok (p.setSize valInt)
  else if field = "MD5sum" then .ok (p.setMD5sum val)
  else if field = "SHA1" then .ok (p.setSHA1 val)
  else if field = "SHA256" then .ok (p.setSHA256 val)
  else .ok p

/-- The loop `for field, reg := range regList` over one line `curStr`. `order` is the
order in which the map `regList` is ranged over. The result is the updated
`(p, key)`, or the error of a failed `Atoi`. -/
def scanFields (fieldKey curStr : String) :
    List String → Package → String → Except Error (Package × String)
  | [], p, key => .ok (p, key)
  | field :: rest, p, key =>
    match matchField field curStr with
    | none => scanFields fieldKey curStr rest p key
    | some val =>
      let key1 := if field = fieldKey then val else key
      match setField field val p with
      | .error e => .error e
      | .ok p1 => scanFields fieldKey curStr rest p1 key1

/-- Local variables of `Parse` that live across iterations of the scan loop. -/
structure ScanState where
  packages : PackageMap
  p : Package
  key : String
deriving DecidableEq, Repr

/-- Message of the duplicate-key error. -/
def duplicateMsg (fieldKey key : String) : String :=
  "duplicate package for field key " ++ fieldKey ++ ": " ++ key

/-- Message of the error for a key field that is not supported. -/
def unknownFieldMsg (fieldKey : String) : String :=
  "unknown field can't be used as map key: " ++ fieldKey

/-- The `if curStr == ""` block: commit the record under the pending key (after the
duplicate test when `failOnDup` is set) and reset both. An error comes with the map
as it is at the `return`. -/
def commitOnBlank (fieldKey : String) (failOnDup : Bool) (curStr : String) (st : ScanState) :
    Except (PackageMap × Error) ScanState :=
  if curStr = "" then
    if failOnDup && mapHas st.packages st.key then
      .error (st.packages, .errorsNew (duplicateMsg fieldKey st.key))
    else
      .ok { packages := mapSet st.packages st.key st.p, p := {}, key := "" }
  else .ok st

/-- One iteration of `for s.Scan()`: the blank-line block, then the field loop. -/
def lineStep (order : List String) (fieldKey : String) (failOnDup : Bool)
    (st : ScanState) (curStr : String) : Except (PackageMap × Error) ScanState :=
  match commitOnBlank fieldKey failOnDup curStr st with
  | .error e => .error e
  | .ok st1 =>
    match scanFields fieldKey curStr order st1.p st1.key with
    | .error e => .error (st1.packages, e)
    | .ok (p, key) => .ok { packages := st1.packages, p := p, key := key }

/-- The loop `for s.Scan()` over the lines still to come; when they run out the
function returns the map with a nil error. -/
def scanLoop (order : List String) (fieldKey : String) (failOnDup : Bool) :
    ScanState → List String → ParseResult
  | st, [] => { packages := some st.packages, err := none }
  | st, curStr :: rest =>
    match lineStep order fieldKey failOnDup st curStr with
    | .error (m, e) => { packages := some m, err := some e }
    | .ok st1 => scanLoop order fieldKey failOnDup st1 rest

/-- Variables as initialised before the loop: `packages = make(...)`, `p := Package{}`,
`key := ""`. -/
def initState : ScanState := { packages := [], p := {}, key := "" }

/-- The function `Parse` with the iteration order of `regList` made explicit. -/
def ParseWith (order : List String) (lines : List String) (fieldKey : String)
    (failOnDup : Bool) : ParseResult :=
  if !stringsContains (stringsJoin Fields "|") fieldKey then
    { packages := none, err := some (.errorsNew (unknownFieldMsg fieldKey)) }
  else
    scanLoop order fieldKey failOnDup initState lines

/-- The function `Parse(r, fieldKey, failOnDup)`, with `regList` ranged over in the order of
`Fields`. -/
def Parse (lines : List String) (fieldKey : String) (failOnDup : Bool) : ParseResult :=
  ParseWith Fields lines fieldKey failOnDup

/-! ## Auxiliary definitions for the statements -/

/-- State reached by the scan loop after the given lines, or the map and error of the
`return` that ended it early. -/
def runLines (order : List String) (fieldKey : String) (failOnDup : Bool) :
    ScanState → List String → Except (PackageMap × Error) ScanState
  | st, [] => .ok st
  | st, curStr :: rest =>
    match lineStep order fieldKey failOnDup st curStr with
    | .error e => .error e
    | .ok st1 => runLines order fieldKey failOnDup st1 rest

/-- Results of `Parse` for a loop that ended in the given way. -/
def resultOf : Except (PackageMap × Error) ScanState → ParseResult
  | .error (m, e) => { packages := some m, err := some e }
  | .ok st => { packages := some st.packages, err := none }

/-- Field loop over the lines of one stanza (none of them blank), starting from `(p, key)`. -/
def scanStanza (order : List String) (fieldKey : String) :
    List String → Package → String → Except Error (Package × String)
  | [], p, key => .ok (p, key)
  | l :: s, p, key =>
    match scanFields fieldKey l order p key with
    | .error e => .error e
    | .ok (p1, key1) => scanStanza order fieldKey s p1 key1


/-- Letter-case variants: `f` has the characters of `name`, each in either case. -/
def isCaseVariant : List Char → List Char → Bool
  | [], [] => true
  | c :: cs, r :: rs => (c == r.toLower || c == r.toUpper) && isCaseVariant cs rs
  | _, _ => false

/-- Two literal patterns can match a common text as far as the shorter one reaches:
at every common position the fold orbits meet. -/
def compatible : List Char → List Char → Bool
  | r :: p, q :: ps => (simpleFoldOrbit r).any (fun c => c ∈ simpleFoldOrbit q) && compatible p ps
  | _, _ => true


/-- Supported fields whose attribute is a string. -/
def textFields : List String :=
  ["Package", "Priority", "Section", "Maintainer", "Architecture", "Version", "Depends",
   "Filename", "MD5sum", "SHA1", "SHA256"]

/-- Supported fields whose attribute is an integer. -/
def numericFields : List String := ["Installed-Size", "Size"]

/-- Attribute of a record that belongs to a text field (the empty string for any other name). -/
def textAttr (field : String) (p : Package) : String :=
  if field = "Package" then p.Package
  else if field = "Priority" then p.Priority
  else if field = "Section" then p.Section
  else if field = "Maintainer" then p.Maintainer
  else if field = "Architecture" then p.Architecture
  else if field = "Version" then p.Version
  else if field = "Depends" then p.Depends
  else if field = "Filename" then p.Filename
  else if field = "MD5sum" then p.MD5sum
  else if field = "SHA1" then p.SHA1
  else if field = "SHA256" then p.SHA256
  else ""

/-- Attribute of a record that belongs to a numeric field (zero for any other name). -/
def intAttr (field : String) (p : Package) : Int :=
  if field = "Installed-Size" then p.InstalledSize
  else if field = "Size" then p.Size
  else 0

/-- Integer that `strconv.Atoi` yields for `v` (zero when it fails). -/
def atoiValue (v : String) : Int :=
  match Atoi v with
  | .ok n => n
  | .error _ => 0

/-- Orders in which the map `regList` can be ranged over: every supported field once. -/
def IsFieldOrder (order : List String) : Prop :=
  order.Nodup ∧ ∀ H, H ∈ order ↔ H ∈ Fields

/-- Values that the lines of a stanza assign to a field, in the order of the lines. -/
def fieldValues (field : String) (s : List String) : List String :=
  s.filterMap (matchField field)

/-- Value of the last line of the stanza that assigns the field, `d` when there is none. -/
def lastValue (field : String) (s : List String) (d : String) : String :=
  ((fieldValues field s).getLast?).getD d

/-- Integer value of the last line of the stanza that assigns the numeric field, `d` when
there is none. -/
def lastInt (field : String) (s : List String) (d : Int) : Int :=
  (((fieldValues field s).getLast?).map atoiValue).getD d

/-- Key under which a stanza is committed: the value of its last key-field line, or the
empty string. -/
def stanzaKey (fieldKey : String) (s : List String) : String :=
  lastValue fieldKey s ""

/-- Record described by the lines of a stanza: every attribute comes from the last line
that assigns its field, and is zero when no line does. -/
def stanzaRecord (s : List String) : Package :=
  { Package := lastValue "Package" s ""
    Priority := lastValue "Priority" s ""
    Section := lastValue "Section" s ""
    InstalledSize := lastInt "Installed-Size" s 0
    Maintainer := lastValue "Maintainer" s ""
    Architecture := lastValue "Architecture" s ""
    Version := lastValue "Version" s ""
    Depends := lastValue "Depends" s ""
    Filename := lastValue "Filename" s ""
    Size := lastInt "Size" s 0
    MD5sum := lastValue "MD5sum" s ""
    SHA1 := lastValue "SHA1" s ""
    SHA256 := lastValue "SHA256" s "" }

/-- The line assigns no numeric field a value that `Atoi` rejects. -/
def lineNumericOK (l : String) : Bool :=
  numericFields.all fun G =>
    match matchField G l with
    | none => true
    | some v =>
      match Atoi v with
      | .ok _ => true
      | .error _ => false

/-- The lines before a stanza leave nothing pending: there are none, or the last of them
is blank. -/
def FreshAfter (pre : List String) : Prop := pre = [] ∨ pre.getLast? = some ""


/-- Input text of a sequence of stanzas: the lines of each stanza followed by one blank line. -/
def joinStanzas : List (List String) → List String
  | [] => []
  | s :: rest => s ++ "" :: joinStanzas rest

/-- Stanzas of an input whose first lines continue the stanza `cur`: a blank line closes the
current stanza; lines behind the last blank line belong to no stanza. -/
def stanzasFrom : List String → List String → List (List String)
  | _, [] => []
  | cur, l :: rest => if l = "" then cur :: stanzasFrom [] rest else stanzasFrom (cur ++ [l]) rest

/-- Blank-line-terminated stanzas of an input, in the order of the input. -/
def stanzasOf (lines : List String) : List (List String) :=
  stanzasFrom [] lines

/-- Committing stanzas one after the other: under its key each stanza's record replaces what
the map holds there, except that with `failOnDup` a key already present ends the run with the
duplicate-key error and the map as it is. -/
def commitStanzas (fieldKey : String) (failOnDup : Bool) :
    PackageMap → List (List String) → Except (PackageMap × Error) PackageMap
  | m, [] => .ok m
  | m, s :: rest =>
    if failOnDup && mapHas m (stanzaKey fieldKey s) then
      .error (m, .errorsNew (duplicateMsg fieldKey (stanzaKey fieldKey s)))
    else commitStanzas fieldKey failOnDup (mapSet m (stanzaKey fieldKey s) (stanzaRecord s)) rest

/-- Results of `Parse` for a run of commits that ended in the given way. -/
def commitResult : Except (PackageMap × Error) PackageMap → ParseResult
  | .error (m, e) => { packages := some m, err := some e }
  | .ok m => { packages := some m, err := none }

/-- Number denoted by a string of decimal digits (most significant digit first). -/
def decimalValue (cs : List Char) : Nat :=
  Nat.ofDigits 10 (cs.reverse.map fun c => c.toNat - 48)

/-- Texts that denote an integer in base 10: an optional sign, then one or more decimal
digits. -/
def isDecimalInteger (v : String) : Bool :=
  match v.data with
  | [] => false
  | c :: cs =>
    if c = '+' ∨ c = '-' then !cs.isEmpty && cs.all Char.isDigit
    else (c :: cs).all Char.isDigit

/-- Line `l1` is line `l` with the letter case of the field name at its start changed: both
start with a letter-case variant of the same supported field name and agree behind it (or
they are the same line). -/
def CaseChanged (l l1 : String) : Prop :=
  l = l1 ∨
    ∃ G ∈ Fields, ∃ f f1 rest : List Char,
      isCaseVariant f G.data = true ∧ isCaseVariant f1 G.data = true ∧
      l.data = f ++ rest ∧ l1.data = f1 ++ rest

/-! ## The reader, and further definitions for the statements -/

/-- What the scanner makes of the reader handed to `Parse`: the lines that the calls of
`s.Scan()` deliver before it returns false, and the error that `s.Err()` holds from then on
(`none` when the reader came to its end, some error when reading failed). -/
structure Reader where
  lines : List String
  readErr : Option Error

/-- The function `Parse` on a reader. The loop `for s.Scan()` ends as soon as `Scan` returns
false, for whatever reason; the code never consults `s.Err()`, and the final `return` hands
back the named results as they stand. -/
def ParseReader (r : Reader) (fieldKey : String) (failOnDup : Bool) : ParseResult :=
  Parse r.lines fieldKey failOnDup

/-- Input cut off behind its last blank line (nothing is left when no line is blank). -/
def uptoLastBlank (lines : List String) : List String :=
  (lines.reverse.dropWhile (fun l => l != "")).reverse

/-- The loop `for s.Scan()` when the range statement over `regList` uses the order
`orderAt i` for line number `i`. -/
def scanLoopAt (orderAt : Nat → List String) (fieldKey : String) (failOnDup : Bool) :
    Nat → ScanState → List String → ParseResult
  | _, st, [] => { packages := some st.packages, err := none }
  | i, st, curStr :: rest =>
    match lineStep (orderAt i) fieldKey failOnDup st curStr with
    | .error (m, e) => { packages := some m, err := some e }
    | .ok st1 => scanLoopAt orderAt fieldKey failOnDup (i + 1) st1 rest

/-- The function `Parse` when the range statement over `regList` uses the order `orderAt i`
for line number `i`. -/
def ParseAt (orderAt : Nat → List String) (lines : List String) (fieldKey : String)
    (failOnDup : Bool) : ParseResult :=
  if !stringsContains (stringsJoin Fields "|") fieldKey then
    { packages := none, err := some (.errorsNew (unknownFieldMsg fieldKey)) }
  else
    scanLoopAt orderAt fieldKey failOnDup 0 initState lines

/-- The line starts with the field name, in any letter case as the flag `(?i)` reads it,
followed by `": "`. -/
def startsWithField (field line : String) : Bool :=
  (matchLiteralFold (field.data ++ [':', ' ']) line.data).isSome

/-! ## The scan loop, line by line -/

theorem scanLoop_eq_resultOf (order : List String) (fk : String) (fd : Bool)
    (st : ScanState) (lines : List String) :
    scanLoop order fk fd st lines = resultOf (runLines order fk fd st lines) := by
  induction lines generalizing st with
  | nil => rfl
  | cons l rest ih =>
    simp only [scanLoop, runLines]
    cases h : lineStep order fk fd st l with
    | error e => rfl
    | ok st1 => simpa using ih st1

theorem runLines_append (order : List String) (fk : String) (fd : Bool)
    (st : ScanState) (xs ys : List String) :
    runLines order fk fd st (xs ++ ys) =
      match runLines order fk fd st xs with
      | .error e => .error e
      | .ok st1 => runLines order fk fd st1 ys := by
  induction xs generalizing st with
  | nil => rfl
  | cons l rest ih =>
    simp only [List.cons_append, runLines]
    cases h : lineStep order fk fd st l with
    | error e => rfl
    | ok st1 => simpa using ih st1

theorem matchLiteralFold_nil_of_ne (pat : List Char) (h : pat ≠ []) :
    matchLiteralFold pat [] = none := by
  cases pat with
  | nil => exact absurd rfl h
  | cons r pat => rfl

theorem matchField_empty (field : String) : matchField field "" = none := by
  have h : matchLiteralFold (field.data ++ [':', ' ']) [] = none :=
    matchLiteralFold_nil_of_ne _ (by simp)
  simp [matchField, h]

theorem scanFields_empty (fk : String) (order : List String) (p : Package) (key : String) :
    scanFields fk "" order p key = .ok (p, key) := by
  induction order with
  | nil => rfl
  | cons f rest ih => simp [scanFields, matchField_empty, ih]

theorem lineStep_blank (order : List String) (fk : String) (fd : Bool) (st : ScanState) :
    lineStep order fk fd st "" =
      if fd && mapHas st.packages st.key then
        .error (st.packages, .errorsNew (duplicateMsg fk st.key))
      else .ok { packages := mapSet st.packages st.key st.p, p := {}, key := "" } := by
  by_cases h : (fd && mapHas st.packages st.key) = true
  · simp [lineStep, commitOnBlank, h]
  · simp [lineStep, commitOnBlank, h, scanFields_empty]

theorem lineStep_nonblank (order : List String) (fk : String) (fd : Bool) (st : ScanState)
    (l : String) (hl : l ≠ "") :
    lineStep order fk fd st l =
      match scanFields fk l order st.p st.key with
      | .error e => .error (st.packages, e)
      | .ok (p, key) => .ok { packages := st.packages, p := p, key := key } := by
  simp [lineStep, commitOnBlank, hl]

theorem runLines_stanza (order : List String) (fk : String) (fd : Bool) (s : List String)
    (hs : ∀ l ∈ s, l ≠ "") (st : ScanState) :
    runLines order fk fd st s =
      match scanStanza order fk s st.p st.key with
      | .error e => .error (st.packages, e)
      | .ok (p, key) => .ok { packages := st.packages, p := p, key := key } := by
  induction s generalizing st with
  | nil => rfl
  | cons l rest ih =>
    have hl : l ≠ "" := hs l (List.mem_cons_self _ _)
    have hrest : ∀ x ∈ rest, x ≠ "" := fun x hx => hs x (List.mem_cons_of_mem _ hx)
    simp only [runLines, scanStanza, lineStep_nonblank order fk fd st l hl]
    cases h : scanFields fk l order st.p st.key with
    | error e => rfl
    | ok r =>
      obtain ⟨p1, key1⟩ := r
      simpa using ih hrest { packages := st.packages, p := p1, key := key1 }

/-! ## The field patterns -/

set_option maxRecDepth 100000 in
theorem Fields_compatible :
    ∀ F ∈ Fields, ∀ G ∈ Fields, compatible (F.data ++ [':', ' ']) G.data = true → F = G := by
  decide

set_option maxRecDepth 100000 in
theorem Fields_fold_cases :
    ∀ F ∈ Fields, ∀ r ∈ F.data, r.toLower ∈ simpleFoldOrbit r ∧ r.toUpper ∈ simpleFoldOrbit r := by
  decide
theorem matchLiteralFold_append (P Q t : List Char) :
    matchLiteralFold (P ++ Q) t = (matchLiteralFold P t).bind (matchLiteralFold Q) := by
  induction P generalizing t with
  | nil => simp [matchLiteralFold]
  | cons r P ih =>
    cases t with
    | nil => simp [matchLiteralFold]
    | cons c t =>
      by_cases h : c ∈ simpleFoldOrbit r
      · simp [matchLiteralFold, h, ih]
      · simp [matchLiteralFold, h]

theorem matchLiteralFold_variant (P f rest : List Char)
    (hP : ∀ r ∈ P, r.toLower ∈ simpleFoldOrbit r ∧ r.toUpper ∈ simpleFoldOrbit r)
    (hf : isCaseVariant f P = true) : matchLiteralFold P (f ++ rest) = some rest := by
  induction P generalizing f with
  | nil =>
    cases f with
    | nil => simp [matchLiteralFold]
    | cons c f => simp [isCaseVariant] at hf
  | cons r P ih =>
    cases f with
    | nil => simp [isCaseVariant] at hf
    | cons c f =>
      simp only [isCaseVariant, Bool.and_eq_true, Bool.or_eq_true, beq_iff_eq] at hf
      have hr := hP r (List.mem_cons_self _ _)
      have hc : c ∈ simpleFoldOrbit r := by
        rcases hf.1 with h | h
        · rw [h]; exact hr.1
        · rw [h]; exact hr.2
      have hP1 : ∀ x ∈ P, x.toLower ∈ simpleFoldOrbit x ∧ x.toUpper ∈ simpleFoldOrbit x :=
        fun x hx => hP x (List.mem_cons_of_mem _ hx)
      simp [matchLiteralFold, hc, ih f hP1 hf.2]

theorem matchLiteralFold_compatible (P Q t : List Char)
    (hP : (matchLiteralFold P t).isSome = true) (hQ : (matchLiteralFold Q t).isSome = true) :
    compatible P Q = true := by
  induction P generalizing Q t with
  | nil => simp [compatible]
  | cons r P ih =>
    cases Q with
    | nil => simp [compatible]
    | cons q Q =>
      cases t with
      | nil => simp [matchLiteralFold] at hP
      | cons c t =>
        by_cases h1 : c ∈ simpleFoldOrbit r
        · by_cases h2 : c ∈ simpleFoldOrbit q
          · simp only [matchLiteralFold, h1, h2, if_true] at hP hQ
            simp only [compatible, Bool.and_eq_true, List.any_eq_true]
            exact ⟨⟨c, h1, by simpa using h2⟩, ih Q t hP hQ⟩
          · simp [matchLiteralFold, h2] at hQ
        · simp [matchLiteralFold, h1] at hP

theorem matchLiteralFold_sep (v : List Char) :
    matchLiteralFold [':', ' '] (':' :: ' ' :: v) = some v := by
  have h1 : ':' ∈ simpleFoldOrbit ':' := by decide
  have h2 : ' ' ∈ simpleFoldOrbit ' ' := by decide
  simp [matchLiteralFold, h1, h2]

/-- A line made of a letter-case variant of a supported field name, `": "` and a non-empty
value without line feed matches the pattern of that field, and the capture is the value. -/
theorem matchField_variant (F : String) (hF : F ∈ Fields) (f v : String)
    (hf : isCaseVariant f.data F.data = true) (hv : v ≠ "")
    (hnl : ∀ c ∈ v.data, c ≠ Char.ofNat 10) :
    matchField F (f ++ ": " ++ v) = some v := by
  have hdata : (f ++ ": " ++ v).data = f.data ++ (':' :: ' ' :: v.data) := by
    simp [String.data_append]
  have h1 : matchLiteralFold (F.data ++ [':', ' ']) (f ++ ": " ++ v).data = some v.data := by
    rw [hdata, matchLiteralFold_append,
      matchLiteralFold_variant F.data f.data _ (Fields_fold_cases F hF) hf]
    simp [matchLiteralFold_sep]
  have hv1 : v.data ≠ [] := by
    intro h
    apply hv
    cases v
    simp_all
  simp only [matchField, h1]
  rw [if_pos ⟨hv1, by simpa using hnl⟩]

/-- A line that starts with a letter-case variant of the supported field `G` matches the
pattern of no other supported field. -/
theorem matchField_other (F G : String) (hF : F ∈ Fields) (hG : G ∈ Fields) (hFG : F ≠ G)
    (f rest : List Char) (hf : isCaseVariant f G.data = true) :
    matchField F (String.mk (f ++ rest)) = none := by
  cases h : matchLiteralFold (F.data ++ [':', ' ']) (f ++ rest) with
  | none => simp [matchField, h]
  | some r =>
    exfalso
    apply hFG
    apply Fields_compatible F hF G hG
    apply matchLiteralFold_compatible _ _ (f ++ rest)
    · simp [h]
    · simp [matchLiteralFold_variant G.data f rest (Fields_fold_cases G hG) hf]

/-- At most one of the thirteen patterns matches a given line. -/
theorem matchField_unique (F G : String) (hF : F ∈ Fields) (hG : G ∈ Fields) (l : String)
    (hlF : (matchField F l).isSome = true) (hlG : (matchField G l).isSome = true) : F = G := by
  have aux : ∀ H : String, (matchField H l).isSome = true →
      (matchLiteralFold (H.data ++ [':', ' ']) l.data).isSome = true := by
    intro H hH
    cases h : matchLiteralFold (H.data ++ [':', ' ']) l.data with
    | none => simp [matchField, h] at hH
    | some r => rfl
  have h1 := aux F hlF
  have h2 := aux G hlG
  rw [matchLiteralFold_append] at h2
  apply Fields_compatible F hF G hG
  apply matchLiteralFold_compatible _ _ l.data h1
  cases h : matchLiteralFold G.data l.data with
  | none => simp [h] at h2
  | some r => rfl
/-! ## The switch over the field name -/

/-- Case analysis on the `switch field` statement. -/
theorem setField_elim (motive : String → Except Error Package → Prop) (v : String) (p : Package)
    (h1 : motive "Package" (.ok (p.setPackage v)))
    (h2 : motive "Priority" (.ok (p.setPriority v)))
    (h3 : motive "Section" (.ok (p.setSection v)))
    (h4 : motive "Installed-Size"
      (match Atoi v with
       | .error e => .error e
       | .ok valInt => .ok (p.setInstalledSize valInt)))
    (h5 : motive "Maintainer" (.ok (p.setMaintainer v)))
    (h6 : motive "Architecture" (.ok (p.setArchitecture v)))
    (h7 : motive "Version" (.ok (p.setVersion v)))
    (h8 : motive "Depends" (.ok (p.setDepends v)))
    (h9 : motive "Filename" (.ok (p.setFilename v)))
    (h10 : motive "Size"
      (match Atoi v with
       | .error e => .error e
       | .ok valInt => .ok (p.setSize valInt)))
    (h11 : motive "MD5sum" (.ok (p.setMD5sum v)))
    (h12 : motive "SHA1" (.ok (p.setSHA1 v)))
    (h13 : motive "SHA256" (.ok (p.setSHA256 v)))
    (h14 : ∀ G, G ∉ Fields → motive G (.ok p)) (G : String) : motive G (setField G v p) := by
  unfold setField
  by_cases g1 : G = "Package"
  · rw [if_pos g1, g1]; exact h1
  rw [if_neg g1]
  by_cases g2 : G = "Priority"
  · rw [if_pos g2, g2]; exact h2
  rw [if_neg g2]
  by_cases g3 : G = "Section"
  · rw [if_pos g3, g3]; exact h3
  rw [if_neg g3]
  by_cases g4 : G = "Installed-Size"
  · rw [if_pos g4, g4]; exact h4
  rw [if_neg g4]
  by_cases g5 : G = "Maintainer"
  · rw [if_pos g5, g5]; exact h5
  rw [if_neg g5]
  by_cases g6 : G = "Architecture"
  · rw [if_pos g6, g6]; exact h6
  rw [if_neg g6]
  by_cases g7 : G = "Version"
  · rw [if_pos g7, g7]; exact h7
  rw [if_neg g7]
  by_cases g8 : G = "Depends"
  · rw [if_pos g8, g8]; exact h8
  rw [if_neg g8]
  by_cases g9 : G = "Filename"
  · rw [if_pos g9, g9]; exact h9
  rw [if_neg g9]
  by_cases g10 : G = "Size"
  · rw [if_pos g10, g10]; exact h10
  rw [if_neg g10]
  by_cases g11 : G = "MD5sum"
  · rw [if_pos g11, g11]; exact h11
  rw [if_neg g11]
  by_cases g12 : G = "SHA1"
  · rw [if_pos g12, g12]; exact h12
  rw [if_neg g12]
  by_cases g13 : G = "SHA256"
  · rw [if_pos g13, g13]; exact h13
  rw [if_neg g13]
  apply h14
  simp only [Fields, List.mem_cons, List.mem_singleton, List.not_mem_nil, or_false]
  tauto

theorem setField_text (F : String) (hF : F ∈ textFields) (v : String) (p : Package) :
    ∃ p1, setField F v p = .ok p1 ∧ textAttr F p1 = v := by
  simp only [textFields, List.mem_cons, List.mem_singleton, List.not_mem_nil, or_false] at hF
  rcases hF with rfl | rfl | rfl | rfl | rfl | rfl | rfl | rfl | rfl | rfl | rfl <;>
    exact ⟨_, rfl, rfl⟩

theorem setField_frame_text (F G : String) (hFG : G ≠ F) (v : String) (p p1 : Package)
    (h : setField G v p = .ok p1) : textAttr F p1 = textAttr F p := by
  revert hFG p1
  refine setField_elim (fun G r => G ≠ F → ∀ p1, r = .ok p1 → textAttr F p1 = textAttr F p)
    v p ?_ ?_ ?_ ?_ ?_ ?_ ?_ ?_ ?_ ?_ ?_ ?_ ?_ ?_ G
  case refine_4 =>
    intro hne p1 h
    cases hA : Atoi v with
    | error e => simp [hA] at h
    | ok n =>
      simp only [hA, Except.ok.injEq] at h
      subst h
      rfl
  case refine_10 =>
    intro hne p1 h
    cases hA : Atoi v with
    | error e => simp [hA] at h
    | ok n =>
      simp only [hA, Except.ok.injEq] at h
      subst h
      rfl
  case refine_14 =>
    intro G _ _ p1 h
    cases h
    rfl
  all_goals
    intro hne p1 h
    cases h
    simp only [textAttr, Ne.symm hne, if_false]
    rfl

theorem setField_frame_int (F G : String) (hFG : G ≠ F) (v : String) (p p1 : Package)
    (h : setField G v p = .ok p1) : intAttr F p1 = intAttr F p := by
  revert hFG p1
  refine setField_elim (fun G r => G ≠ F → ∀ p1, r = .ok p1 → intAttr F p1 = intAttr F p)
    v p ?_ ?_ ?_ ?_ ?_ ?_ ?_ ?_ ?_ ?_ ?_ ?_ ?_ ?_ G
  case refine_4 =>
    intro hne p1 h
    cases hA : Atoi v with
    | error e => simp [hA] at h
    | ok n =>
      simp only [hA, Except.ok.injEq] at h
      subst h
      simp only [intAttr, Ne.symm hne, if_false]
      rfl
  case refine_10 =>
    intro hne p1 h
    cases hA : Atoi v with
    | error e => simp [hA] at h
    | ok n =>
      simp only [hA, Except.ok.injEq] at h
      subst h
      simp only [intAttr, Ne.symm hne, if_false]
      rfl
  case refine_14 =>
    intro G _ _ p1 h
    cases h
    rfl
  all_goals
    intro hne p1 h
    cases h
    rfl

theorem setField_int (F : String) (hF : F ∈ numericFields) (v : String) (p : Package) :
    (∀ e, Atoi v = .error e → setField F v p = .error e) ∧
    (∀ n, Atoi v = .ok n → ∃ p1, setField F v p = .ok p1 ∧ intAttr F p1 = n) := by
  simp only [numericFields, List.mem_cons, List.mem_singleton, List.not_mem_nil, or_false] at hF
  rcases hF with rfl | rfl
  · constructor
    · intro e he
      have : setField "Installed-Size" v p =
          (match Atoi v with
           | .error e => .error e
           | .ok valInt => .ok (p.setInstalledSize valInt)) := rfl
      rw [this, he]
    · intro n hn
      have : setField "Installed-Size" v p =
          (match Atoi v with
           | .error e => .error e
           | .ok valInt => .ok (p.setInstalledSize valInt)) := rfl
      rw [this, hn]
      exact ⟨_, rfl, rfl⟩
  · constructor
    · intro e he
      have : setField "Size" v p =
          (match Atoi v with
           | .error e => .error e
           | .ok valInt => .ok (p.setSize valInt)) := rfl
      rw [this, he]
    · intro n hn
      have : setField "Size" v p =
          (match Atoi v with
           | .error e => .error e
           | .ok valInt => .ok (p.setSize valInt)) := rfl
      rw [this, hn]
      exact ⟨_, rfl, rfl⟩

theorem setField_error (G v : String) (p : Package) (e : Error)
    (h : setField G v p = .error e) : G ∈ numericFields ∧ Atoi v = .error e := by
  revert h
  refine setField_elim (fun G r => r = .error e → G ∈ numericFields ∧ Atoi v = .error e)
    v p ?_ ?_ ?_ ?_ ?_ ?_ ?_ ?_ ?_ ?_ ?_ ?_ ?_ ?_ G
  case refine_4 =>
    intro h
    cases hA : Atoi v with
    | error e1 =>
      simp only [hA, Except.error.injEq] at h
      exact ⟨by decide, by rw [h]⟩
    | ok n => simp [hA] at h
  case refine_10 =>
    intro h
    cases hA : Atoi v with
    | error e1 =>
      simp only [hA, Except.error.injEq] at h
      exact ⟨by decide, by rw [h]⟩
    | ok n => simp [hA] at h
  case refine_14 =>
    intro G _ h
    cases h
  all_goals
    intro h
    cases h

theorem Fields_isFieldOrder : IsFieldOrder Fields :=
  ⟨by decide, fun _ => Iff.rfl⟩

theorem textFields_subset (F : String) (hF : F ∈ textFields) : F ∈ Fields := by
  revert F
  decide

theorem numericFields_subset (F : String) (hF : F ∈ numericFields) : F ∈ Fields := by
  revert F
  decide

/-! ## The field loop over one line -/

theorem scanFields_none (fk l : String) (order : List String) (p : Package) (key : String)
    (h : ∀ G ∈ order, matchField G l = none) : scanFields fk l order p key = .ok (p, key) := by
  induction order with
  | nil => rfl
  | cons H rest ih =>
    have hH := h H (List.mem_cons_self _ _)
    simp only [scanFields, hH]
    exact ih (fun G hG => h G (List.mem_cons_of_mem _ hG))

/-- A line matched by the pattern of `G` goes through the switch once, for `G`. -/
theorem scanFields_single (fk l : String) (order : List String) (p : Package) (key : String)
    (hsub : ∀ H ∈ order, H ∈ Fields) (hnd : order.Nodup) (G v : String) (hG : G ∈ order)
    (hm : matchField G l = some v) :
    scanFields fk l order p key =
      match setField G v p with
      | .error e => .error e
      | .ok p1 => .ok (p1, if G = fk then v else key) := by
  induction order with
  | nil => simp at hG
  | cons H rest ih =>
    have hnd1 := List.nodup_cons.mp hnd
    by_cases hHG : H = G
    · subst hHG
      simp only [scanFields, hm]
      cases hs : setField H v p with
      | error e => rfl
      | ok p1 =>
        simp only []
        apply scanFields_none
        intro K hK
        cases hKm : matchField K l with
        | none => rfl
        | some w =>
          exfalso
          have : K = H := matchField_unique K H (hsub K (List.mem_cons_of_mem _ hK))
            (hsub H (List.mem_cons_self _ _)) l (by simp [hKm]) (by simp [hm])
          exact hnd1.1 (this ▸ hK)
    · have hG1 : G ∈ rest := by
        rcases List.mem_cons.mp hG with h | h
        · exact absurd h.symm hHG
        · exact h
      have hHm : matchField H l = none := by
        cases hKm : matchField H l with
        | none => rfl
        | some w =>
          exfalso
          exact hHG (matchField_unique H G (hsub H (List.mem_cons_self _ _))
            (hsub G hG) l (by simp [hKm]) (by simp [hm]))
      simp only [scanFields, hHm]
      exact ih (fun K hK => hsub K (List.mem_cons_of_mem _ hK)) hnd1.2 hG1
theorem scanFields_cases (order : List String) (ho : IsFieldOrder order) (fk l : String)
    (p : Package) (key : String) :
    ((∀ G ∈ Fields, matchField G l = none) ∧ scanFields fk l order p key = .ok (p, key)) ∨
    (∃ G ∈ Fields, ∃ v, matchField G l = some v ∧
      scanFields fk l order p key =
        match setField G v p with
        | .error e => .error e
        | .ok p1 => .ok (p1, if G = fk then v else key)) := by
  by_cases h : ∀ G ∈ Fields, matchField G l = none
  · left
    exact ⟨h, scanFields_none fk l order p key (fun G hG => h G ((ho.2 G).mp hG))⟩
  · right
    push_neg at h
    obtain ⟨G, hG, hne⟩ := h
    cases hm : matchField G l with
    | none => exact absurd hm hne
    | some v =>
      exact ⟨G, hG, v, hm, scanFields_single fk l order p key
        (fun H hH => (ho.2 H).mp hH) ho.1 G v ((ho.2 G).mpr hG) hm⟩

/-- What one pass of the field loop over a line does to the record and the pending key. -/
theorem scanFields_sem (order : List String) (ho : IsFieldOrder order) (fk l : String)
    (p : Package) (key : String) (p1 : Package) (key1 : String)
    (h : scanFields fk l order p key = .ok (p1, key1)) :
    (∀ F ∈ textFields, textAttr F p1 = (matchField F l).getD (textAttr F p)) ∧
    (∀ F ∈ numericFields, intAttr F p1 = ((matchField F l).map atoiValue).getD (intAttr F p)) ∧
    (fk ∈ Fields → key1 = (matchField fk l).getD key) ∧
    (fk ∉ Fields → key1 = key) := by
  rcases scanFields_cases order ho fk l p key with ⟨hnone, heq⟩ | ⟨G, hG, v, hm, heq⟩
  · rw [heq] at h
    simp only [Except.ok.injEq, Prod.mk.injEq] at h
    obtain ⟨rfl, rfl⟩ := h
    refine ⟨?_, ?_, ?_, ?_⟩
    · intro F hF
      simp [hnone F (textFields_subset F hF)]
    · intro F hF
      simp [hnone F (numericFields_subset F hF)]
    · intro hfk
      simp [hnone fk hfk]
    · intro _
      rfl
  · rw [heq] at h
    cases hs : setField G v p with
    | error e => simp [hs] at h
    | ok p2 =>
      simp only [hs, Except.ok.injEq, Prod.mk.injEq] at h
      obtain ⟨rfl, rfl⟩ := h
      have other : ∀ F ∈ Fields, F ≠ G → matchField F l = none := by
        intro F hF hFG
        cases hFm : matchField F l with
        | none => rfl
        | some w =>
          exact absurd (matchField_unique F G hF hG l (by simp [hFm]) (by simp [hm])) hFG
      refine ⟨?_, ?_, ?_, ?_⟩
      · intro F hF
        by_cases hFG : F = G
        · subst hFG
          obtain ⟨p3, h3, h4⟩ := setField_text F hF v p
          rw [hs] at h3
          cases h3
          simp [hm, h4]
        · rw [other F (textFields_subset F hF) hFG]
          exact setField_frame_text F G (Ne.symm hFG) v p p2 hs
      · intro F hF
        by_cases hFG : F = G
        · subst hFG
          cases hA : Atoi v with
          | error e =>
            have := (setField_int F hF v p).1 e hA
            rw [hs] at this
            cases this
          | ok n =>
            obtain ⟨p3, h3, h4⟩ := (setField_int F hF v p).2 n hA
            rw [hs] at h3
            cases h3
            simp [hm, h4, atoiValue, hA]
        · rw [other F (numericFields_subset F hF) hFG]
          exact setField_frame_int F G (Ne.symm hFG) v p p2 hs
      · intro hfk
        by_cases hFG : G = fk
        · subst hFG
          simp [hm]
        · simp [hFG, other fk hfk (Ne.symm hFG)]
      · intro hfk
        have : G ≠ fk := fun hh => hfk (hh ▸ hG)
        simp [this]

/-- The field loop over a line fails exactly when the line assigns a numeric field a value
that `Atoi` rejects; the error is that of `Atoi`. -/
theorem scanFields_error_iff (order : List String) (ho : IsFieldOrder order) (fk l : String)
    (p : Package) (key : String) (e : Error) :
    scanFields fk l order p key = .error e ↔
      ∃ G ∈ numericFields, ∃ v, matchField G l = some v ∧ Atoi v = .error e := by
  constructor
  · intro h
    rcases scanFields_cases order ho fk l p key with ⟨_, heq⟩ | ⟨G, hG, v, hm, heq⟩
    · rw [heq] at h
      cases h
    · rw [heq] at h
      cases hs : setField G v p with
      | error e1 =>
        simp only [hs, Except.error.injEq] at h
        subst h
        obtain ⟨h1, h2⟩ := setField_error G v p e1 hs
        exact ⟨G, h1, v, hm, h2⟩
      | ok p2 => simp [hs] at h
  · rintro ⟨G, hG, v, hm, hA⟩
    have hGF := numericFields_subset G hG
    rw [scanFields_single fk l order p key (fun H hH => (ho.2 H).mp hH) ho.1 G v
      ((ho.2 G).mpr hGF) hm, (setField_int G hG v p).1 e hA]
/-! ## The field loop over one stanza -/

theorem lastValue_cons (F l : String) (s : List String) (d : String) :
    lastValue F (l :: s) d = lastValue F s ((matchField F l).getD d) := by
  unfold lastValue fieldValues
  cases h : matchField F l with
  | none => simp [List.filterMap_cons, h]
  | some v =>
    simp only [List.filterMap_cons, h, List.getLast?_cons, Option.getD_some]

theorem lastInt_cons (F l : String) (s : List String) (d : Int) :
    lastInt F (l :: s) d = lastInt F s (((matchField F l).map atoiValue).getD d) := by
  unfold lastInt fieldValues
  cases h : matchField F l with
  | none => simp [List.filterMap_cons, h]
  | some v =>
    simp only [List.filterMap_cons, h, List.getLast?_cons, Option.getD_some, Option.map_some']
    cases (List.filterMap (matchField F) s).getLast? <;> rfl

theorem lineNumericOK_iff (l : String) :
    lineNumericOK l = true ↔
      ∀ e, ¬ ∃ G ∈ numericFields, ∃ v, matchField G l = some v ∧ Atoi v = .error e := by
  unfold lineNumericOK
  rw [List.all_eq_true]
  constructor
  · rintro h e ⟨G, hG, v, hm, hA⟩
    have := h G hG
    simp [hm, hA] at this
  · intro h G hG
    cases hm : matchField G l with
    | none => rfl
    | some v =>
      cases hA : Atoi v with
      | ok n => simp [hA]
      | error e => exact absurd ⟨G, hG, v, hm, hA⟩ (h e)

theorem scanFields_ok_iff (order : List String) (ho : IsFieldOrder order) (fk l : String)
    (p : Package) (key : String) :
    (∃ r, scanFields fk l order p key = .ok r) ↔ lineNumericOK l = true := by
  rw [lineNumericOK_iff]
  constructor
  · rintro ⟨r, hr⟩ e he
    have := (scanFields_error_iff order ho fk l p key e).mpr he
    rw [hr] at this
    cases this
  · intro h
    cases hr : scanFields fk l order p key with
    | ok r => exact ⟨r, rfl⟩
    | error e => exact absurd ((scanFields_error_iff order ho fk l p key e).mp hr) (h e)

/-- What the field loop over the lines of a stanza does to the record and the pending key. -/
theorem scanStanza_sem (order : List String) (ho : IsFieldOrder order) (fk : String)
    (s : List String) (p : Package) (key : String) (p1 : Package) (key1 : String)
    (h : scanStanza order fk s p key = .ok (p1, key1)) :
    (∀ F ∈ textFields, textAttr F p1 = lastValue F s (textAttr F p)) ∧
    (∀ F ∈ numericFields, intAttr F p1 = lastInt F s (intAttr F p)) ∧
    (fk ∈ Fields → key1 = lastValue fk s key) ∧
    (fk ∉ Fields → key1 = key) := by
  induction s generalizing p key with
  | nil =>
    simp only [scanStanza, Except.ok.injEq, Prod.mk.injEq] at h
    obtain ⟨rfl, rfl⟩ := h
    refine ⟨?_, ?_, ?_, ?_⟩ <;> intros <;> rfl
  | cons l s ih =>
    simp only [scanStanza] at h
    cases hl : scanFields fk l order p key with
    | error e => simp [hl] at h
    | ok r =>
      obtain ⟨p2, key2⟩ := r
      simp only [hl] at h
      obtain ⟨a1, a2, a3, a4⟩ := scanFields_sem order ho fk l p key p2 key2 hl
      obtain ⟨b1, b2, b3, b4⟩ := ih p2 key2 h
      refine ⟨?_, ?_, ?_, ?_⟩
      · intro F hF
        rw [lastValue_cons, b1 F hF, a1 F hF]
      · intro F hF
        rw [lastInt_cons, b2 F hF, a2 F hF]
      · intro hfk
        rw [lastValue_cons, b3 hfk, a3 hfk]
      · intro hfk
        rw [b4 hfk, a4 hfk]

theorem scanStanza_ok_iff (order : List String) (ho : IsFieldOrder order) (fk : String)
    (s : List String) (p : Package) (key : String) :
    (∃ r, scanStanza order fk s p key = .ok r) ↔ ∀ l ∈ s, lineNumericOK l = true := by
  induction s generalizing p key with
  | nil => simp [scanStanza]
  | cons l s ih =>
    simp only [scanStanza, List.mem_cons, forall_eq_or_imp]
    cases hl : scanFields fk l order p key with
    | error e =>
      have : ¬ lineNumericOK l = true := by
        rw [← scanFields_ok_iff order ho fk l p key, hl]
        simp
      simp [this]
    | ok r =>
      obtain ⟨p2, key2⟩ := r
      have : lineNumericOK l = true := by
        rw [← scanFields_ok_iff order ho fk l p key, hl]
        exact ⟨_, rfl⟩
      simp only [this, true_and]
      exact ih p2 key2

theorem Package_ext (p q : Package)
    (ht : ∀ F ∈ textFields, textAttr F p = textAttr F q)
    (hn : ∀ F ∈ numericFields, intAttr F p = intAttr F q) : p = q := by
  cases p
  cases q
  have t1 := ht "Package" (by decide)
  have t2 := ht "Priority" (by decide)
  have t3 := ht "Section" (by decide)
  have t4 := ht "Maintainer" (by decide)
  have t5 := ht "Architecture" (by decide)
  have t6 := ht "Version" (by decide)
  have t7 := ht "Depends" (by decide)
  have t8 := ht "Filename" (by decide)
  have t9 := ht "MD5sum" (by decide)
  have t10 := ht "SHA1" (by decide)
  have t11 := ht "SHA256" (by decide)
  have n1 := hn "Installed-Size" (by decide)
  have n2 := hn "Size" (by decide)
  simp only [textAttr, intAttr] at t1 t2 t3 t4 t5 t6 t7 t8 t9 t10 t11 n1 n2
  simp_all

theorem stanzaRecord_text (F : String) (hF : F ∈ textFields) (s : List String) :
    textAttr F (stanzaRecord s) = lastValue F s "" := by
  simp only [textFields, List.mem_cons, List.mem_singleton, List.not_mem_nil, or_false] at hF
  rcases hF with rfl | rfl | rfl | rfl | rfl | rfl | rfl | rfl | rfl | rfl | rfl <;> rfl

theorem stanzaRecord_int (F : String) (hF : F ∈ numericFields) (s : List String) :
    intAttr F (stanzaRecord s) = lastInt F s 0 := by
  simp only [numericFields, List.mem_cons, List.mem_singleton, List.not_mem_nil, or_false] at hF
  rcases hF with rfl | rfl <;> rfl

theorem empty_text (F : String) (hF : F ∈ textFields) : textAttr F {} = "" := by
  revert F
  decide

theorem empty_int (F : String) (hF : F ∈ numericFields) : intAttr F {} = 0 := by
  revert F
  decide

/-- Started from the empty record and the empty key, the field loop over a stanza ends with
the record and the key that the stanza describes. -/
theorem scanStanza_fresh (order : List String) (ho : IsFieldOrder order) (fk : String)
    (hfk : fk ∈ Fields) (s : List String) (p1 : Package) (key1 : String)
    (h : scanStanza order fk s {} "" = .ok (p1, key1)) :
    p1 = stanzaRecord s ∧ key1 = stanzaKey fk s := by
  obtain ⟨a1, a2, a3, _⟩ := scanStanza_sem order ho fk s {} "" p1 key1 h
  refine ⟨Package_ext _ _ ?_ ?_, a3 hfk⟩
  · intro F hF
    rw [a1 F hF, stanzaRecord_text F hF, empty_text F hF]
  · intro F hF
    rw [a2 F hF, stanzaRecord_int F hF, empty_int F hF]
/-! ## The map -/

theorem mapGet_mapSet (m : PackageMap) (k : String) (p : Package) (k1 : String) :
    mapGet (mapSet m k p) k1 = if k1 = k then some p else mapGet m k1 := by
  unfold mapGet mapSet
  by_cases h : k1 = k
  · subst h
    simp
  · have hk : (k == k1) = false := by simpa using Ne.symm h
    rw [List.find?_cons, if_neg h]
    simp only [hk]
    congr 1
    induction m with
    | nil => rfl
    | cons e m ih =>
      by_cases he : e.1 = k
      · have h1 : (e.1 == k1) = false := by simpa [he] using Ne.symm h
        have h2 : (!(e.1 == k)) = false := by simp [he]
        rw [List.filter_cons, if_neg (by simp [h2]), ih, List.find?_cons, h1]
      · have h2 : (!(e.1 == k)) = true := by simp [he]
        rw [List.filter_cons, if_pos h2, List.find?_cons, List.find?_cons, ih]

theorem mapHas_eq_isSome (m : PackageMap) (k : String) : mapHas m k = (mapGet m k).isSome := by
  unfold mapHas mapGet
  induction m with
  | nil => rfl
  | cons e m ih =>
    by_cases he : e.1 = k
    · simp [List.find?_cons, he]
    · simp [List.find?_cons, he, ih]

theorem mapHas_mapSet (m : PackageMap) (k : String) (p : Package) (k1 : String) :
    mapHas (mapSet m k p) k1 = (decide (k1 = k) || mapHas m k1) := by
  rw [mapHas_eq_isSome, mapHas_eq_isSome, mapGet_mapSet]
  by_cases h : k1 = k <;> simp [h]

theorem length_mapSet (m : PackageMap) (k : String) (p : Package) (h : mapHas m k = false) :
    (mapSet m k p).length = m.length + 1 := by
  unfold mapSet
  have : m.filter (fun e => !(e.1 == k)) = m := by
    rw [List.filter_eq_self]
    intro e he
    unfold mapHas at h
    rw [List.any_eq_false] at h
    have := h e he
    simpa using this
  simp [this]
/-! ## Parse as a run of the scan loop -/

theorem Fields_accepted :
    ∀ fk ∈ Fields, stringsContains (stringsJoin Fields "|") fk = true := by
  decide

theorem Parse_eq_resultOf (lines : List String) (fk : String) (fd : Bool)
    (h : stringsContains (stringsJoin Fields "|") fk = true) :
    Parse lines fk fd = resultOf (runLines Fields fk fd initState lines) := by
  simp [Parse, ParseWith, h, scanLoop_eq_resultOf]

theorem resultOf_ok_iff (r : Except (PackageMap × Error) ScanState) (m : PackageMap) :
    resultOf r = { packages := some m, err := none } ↔ ∃ st, r = .ok st ∧ st.packages = m := by
  cases r with
  | error e =>
    obtain ⟨m1, e1⟩ := e
    simp [resultOf]
  | ok st => simp [resultOf]

theorem resultOf_err_none_iff (r : Except (PackageMap × Error) ScanState) :
    (resultOf r).err = none ↔ ∃ st, r = .ok st := by
  cases r with
  | error e =>
    obtain ⟨m1, e1⟩ := e
    simp [resultOf]
  | ok st => simp [resultOf]

/-- After a blank line the record and the pending key are empty. -/
theorem runLines_fresh (order : List String) (fk : String) (fd : Bool) (st st1 : ScanState)
    (pre : List String) (hpre : pre.getLast? = some "")
    (h : runLines order fk fd st pre = .ok st1) : st1.p = {} ∧ st1.key = "" := by
  obtain ⟨ys, rfl⟩ : ∃ ys, pre = ys ++ [""] := by
    rcases List.eq_nil_or_concat pre with h0 | ⟨ys, y, hy⟩
    · simp [h0] at hpre
    · subst hy
      rw [List.concat_eq_append, List.getLast?_concat] at hpre
      simp only [Option.some.injEq] at hpre
      subst hpre
      exact ⟨ys, by simp⟩
  rw [runLines_append] at h
  cases h1 : runLines order fk fd st ys with
  | error e => simp [h1] at h
  | ok st2 =>
    simp only [h1, runLines, lineStep_blank] at h
    by_cases hd : (fd && mapHas st2.packages st2.key) = true
    · simp [hd] at h
    · simp only [hd] at h
      simp only [Bool.false_eq_true, if_false, Except.ok.injEq] at h
      subst h
      exact ⟨rfl, rfl⟩

theorem runLines_freshAfter (order : List String) (fk : String) (fd : Bool) (st1 : ScanState)
    (pre : List String) (hpre : FreshAfter pre)
    (h : runLines order fk fd initState pre = .ok st1) : st1.p = {} ∧ st1.key = "" := by
  rcases hpre with h0 | h0
  · subst h0
    simp only [runLines, Except.ok.injEq] at h
    subst h
    exact ⟨rfl, rfl⟩
  · exact runLines_fresh order fk fd initState st1 pre h0 h

/-- Running a blank-line-terminated stanza with well-formed numbers from a fresh state
`(m, {}, "")`: the duplicate test, then the commit of the stanza's record under its key. -/
theorem runLines_stanza_blank (order : List String) (ho : IsFieldOrder order) (fk : String)
    (hfk : fk ∈ Fields) (fd : Bool) (m : PackageMap) (s : List String)
    (hs : ∀ l ∈ s, l ≠ "") (hok : ∀ l ∈ s, lineNumericOK l = true) :
    runLines order fk fd { packages := m, p := {}, key := "" } (s ++ [""]) =
      if fd && mapHas m (stanzaKey fk s) then
        .error (m, .errorsNew (duplicateMsg fk (stanzaKey fk s)))
      else
        .ok { packages := mapSet m (stanzaKey fk s) (stanzaRecord s), p := {}, key := "" } := by
  rw [runLines_append, runLines_stanza order fk fd s hs]
  obtain ⟨r, hr⟩ := (scanStanza_ok_iff order ho fk s {} "").mpr hok
  obtain ⟨p1, key1⟩ := r
  obtain ⟨h1, h2⟩ := scanStanza_fresh order ho fk hfk s p1 key1 hr
  subst h1 h2
  simp only [hr, runLines, lineStep_blank]
  by_cases hd : (fd && mapHas m (stanzaKey fk s)) = true
  · simp [hd]
  · simp [hd]

/-- A stanza with a malformed number ends the run with the error of `Atoi` and the map
as it was at the start of the stanza. -/
theorem runLines_stanza_bad (order : List String) (ho : IsFieldOrder order) (fk : String)
    (fd : Bool) (st : ScanState) (s rest : List String)
    (hs : ∀ l ∈ s, l ≠ "") (hbad : ¬ ∀ l ∈ s, lineNumericOK l = true) :
    ∃ e, runLines order fk fd st (s ++ rest) = .error (st.packages, e) := by
  rw [runLines_append, runLines_stanza order fk fd s hs]
  cases hr : scanStanza order fk s st.p st.key with
  | error e => exact ⟨e, rfl⟩
  | ok r => exact absurd ((scanStanza_ok_iff order ho fk s st.p st.key).mp ⟨r, hr⟩) hbad

/-- The result of a successful `Parse` on input that ends with a blank-line-terminated
stanza is the result on the lines before it with the stanza committed on top. -/
theorem Parse_commit (pre s : List String) (fk : String) (hfk : fk ∈ Fields) (fd : Bool)
    (hpre : FreshAfter pre) (hs : ∀ l ∈ s, l ≠ "") (m : PackageMap)
    (h : Parse (pre ++ s ++ [""]) fk fd = { packages := some m, err := none }) :
    ∃ m0, Parse pre fk fd = { packages := some m0, err := none } ∧
      m = mapSet m0 (stanzaKey fk s) (stanzaRecord s) ∧
      (∀ l ∈ s, lineNumericOK l = true) ∧
      (fd = true → mapHas m0 (stanzaKey fk s) = false) := by
  have hacc := Fields_accepted fk hfk
  rw [Parse_eq_resultOf _ fk fd hacc, resultOf_ok_iff] at h
  obtain ⟨st, hst, hm⟩ := h
  rw [List.append_assoc, runLines_append] at hst
  cases h1 : runLines Fields fk fd initState pre with
  | error e => simp [h1] at hst
  | ok st1 =>
    simp only [h1] at hst
    obtain ⟨hp, hk⟩ := runLines_freshAfter Fields fk fd st1 pre hpre h1
    have hst1 : st1 = { packages := st1.packages, p := {}, key := "" } := by
      cases st1
      simp_all
    refine ⟨st1.packages, ?_, ?_⟩
    · rw [Parse_eq_resultOf _ fk fd hacc, h1]
      rfl
    · rw [hst1] at hst
      by_cases hok : ∀ l ∈ s, lineNumericOK l = true
      · rw [runLines_stanza_blank Fields Fields_isFieldOrder fk hfk fd _ s hs hok] at hst
        by_cases hd : (fd && mapHas st1.packages (stanzaKey fk s)) = true
        · simp [hd] at hst
        · simp only [hd, Bool.false_eq_true, if_false, Except.ok.injEq] at hst
          subst hst
          refine ⟨hm.symm, hok, ?_⟩
          intro hfd
          simpa [hfd] using hd
      · obtain ⟨e, he⟩ := runLines_stanza_bad Fields Fields_isFieldOrder fk fd
          { packages := st1.packages, p := {}, key := "" } s [""] hs hok
        rw [he] at hst
        cases hst
/-! ## Parse as a sequence of commits -/

theorem scanStanza_append (order : List String) (fk : String) (xs ys : List String)
    (p : Package) (key : String) :
    scanStanza order fk (xs ++ ys) p key =
      match scanStanza order fk xs p key with
      | .error e => .error e
      | .ok (p1, key1) => scanStanza order fk ys p1 key1 := by
  induction xs generalizing p key with
  | nil => rfl
  | cons l xs ih =>
    simp only [List.cons_append, scanStanza]
    cases h : scanFields fk l order p key with
    | error e => rfl
    | ok r =>
      obtain ⟨p1, key1⟩ := r
      simpa using ih p1 key1

/-- With well-formed numbers throughout, the scan loop commits the stanzas of its input one
after the other. `cur` holds the lines of the current stanza read so far. -/
theorem runLines_commitStanzas (order : List String) (ho : IsFieldOrder order) (fk : String)
    (hfk : fk ∈ Fields) (fd : Bool) (lines : List String)
    (hok : ∀ l ∈ lines, lineNumericOK l = true) (cur : List String) (m : PackageMap)
    (p : Package) (key : String) (hcur : scanStanza order fk cur {} "" = .ok (p, key)) :
    resultOf (runLines order fk fd { packages := m, p := p, key := key } lines) =
      commitResult (commitStanzas fk fd m (stanzasFrom cur lines)) := by
  induction lines generalizing cur m p key with
  | nil => rfl
  | cons l rest ih =>
    have hrest : ∀ x ∈ rest, lineNumericOK x = true :=
      fun x hx => hok x (List.mem_cons_of_mem _ hx)
    by_cases hl : l = ""
    · subst hl
      obtain ⟨h1, h2⟩ := scanStanza_fresh order ho fk hfk cur p key hcur
      subst h1 h2
      simp only [runLines, lineStep_blank, stanzasFrom, if_true, commitStanzas]
      by_cases hd : (fd && mapHas m (stanzaKey fk cur)) = true
      · simp only [hd, if_true]
        rfl
      · simp only [hd, Bool.false_eq_true, if_false]
        exact ih hrest [] _ _ _ rfl
    · obtain ⟨r, hr⟩ := (scanFields_ok_iff order ho fk l p key).mpr
        (hok l (List.mem_cons_self _ _))
      obtain ⟨p1, key1⟩ := r
      simp only [runLines, lineStep_nonblank order fk fd _ l hl, hr, stanzasFrom, if_neg hl]
      apply ih hrest
      rw [scanStanza_append, hcur]
      simp [scanStanza, hr]

/-- A run of the loop that ends without error met well-formed numbers only. -/
theorem runLines_ok_numericOK (order : List String) (ho : IsFieldOrder order) (fk : String)
    (fd : Bool) (lines : List String) (st st1 : ScanState)
    (h : runLines order fk fd st lines = .ok st1) : ∀ l ∈ lines, lineNumericOK l = true := by
  induction lines generalizing st with
  | nil => simp
  | cons l rest ih =>
    simp only [runLines] at h
    cases hs : lineStep order fk fd st l with
    | error e => simp [hs] at h
    | ok st2 =>
      simp only [hs] at h
      intro x hx
      rcases List.mem_cons.mp hx with rfl | hx
      · by_cases hl : x = ""
        · subst hl
          simp [lineNumericOK, matchField_empty]
        · rw [lineStep_nonblank order fk fd st x hl] at hs
          cases hr : scanFields fk x order st.p st.key with
          | error e => simp [hr] at hs
          | ok r => exact (scanFields_ok_iff order ho fk x st.p st.key).mp ⟨r, hr⟩
      · exact ih st2 h x hx

/-- On input with well-formed numbers `Parse` is the sequence of commits of its stanzas. -/
theorem Parse_eq_commitResult (lines : List String) (fk : String) (hfk : fk ∈ Fields)
    (fd : Bool) (hok : ∀ l ∈ lines, lineNumericOK l = true) :
    Parse lines fk fd = commitResult (commitStanzas fk fd [] (stanzasOf lines)) := by
  rw [Parse_eq_resultOf _ fk fd (Fields_accepted fk hfk)]
  exact runLines_commitStanzas Fields Fields_isFieldOrder fk hfk fd lines hok [] [] {} "" rfl

theorem Parse_ok_numericOK (lines : List String) (fk : String) (hfk : fk ∈ Fields)
    (fd : Bool) (h : (Parse lines fk fd).err = none) :
    ∀ l ∈ lines, lineNumericOK l = true := by
  rw [Parse_eq_resultOf _ fk fd (Fields_accepted fk hfk), resultOf_err_none_iff] at h
  obtain ⟨st, hst⟩ := h
  exact runLines_ok_numericOK Fields Fields_isFieldOrder fk fd lines _ st hst

theorem stanzasFrom_append (cur s rest : List String) (hs : ∀ l ∈ s, l ≠ "") :
    stanzasFrom cur (s ++ rest) = stanzasFrom (cur ++ s) rest := by
  induction s generalizing cur with
  | nil => simp
  | cons l s ih =>
    have hl : l ≠ "" := hs l (List.mem_cons_self _ _)
    rw [List.cons_append, stanzasFrom, if_neg hl,
      ih (cur ++ [l]) (fun x hx => hs x (List.mem_cons_of_mem _ hx))]
    simp

theorem stanzasOf_joinStanzas (bs : List (List String)) (hbs : ∀ s ∈ bs, ∀ l ∈ s, l ≠ "") :
    stanzasOf (joinStanzas bs) = bs := by
  unfold stanzasOf
  induction bs with
  | nil => rfl
  | cons b bs ih =>
    rw [joinStanzas, stanzasFrom_append [] b _ (hbs b (List.mem_cons_self _ _))]
    simp only [List.nil_append, stanzasFrom, if_true]
    rw [ih (fun s hs => hbs s (List.mem_cons_of_mem _ hs))]
/-! ## Properties of a sequence of commits -/

theorem commitStanzas_distinct (fk : String) (fd : Bool) (bs : List (List String))
    (m : PackageMap) (hnd : (bs.map (stanzaKey fk)).Nodup)
    (hm : ∀ s ∈ bs, mapHas m (stanzaKey fk s) = false) :
    ∃ m1, commitStanzas fk fd m bs = .ok m1 ∧ m1.length = m.length + bs.length := by
  induction bs generalizing m with
  | nil => exact ⟨m, rfl, rfl⟩
  | cons s rest ih =>
    have hs := hm s (List.mem_cons_self _ _)
    rw [List.map_cons, List.nodup_cons] at hnd
    have hrest : ∀ t ∈ rest, mapHas (mapSet m (stanzaKey fk s) (stanzaRecord s))
        (stanzaKey fk t) = false := by
      intro t ht
      rw [mapHas_mapSet, hm t (List.mem_cons_of_mem _ ht)]
      have : stanzaKey fk t ≠ stanzaKey fk s := by
        intro heq
        exact hnd.1 (heq ▸ List.mem_map_of_mem _ ht)
      simp [this]
    obtain ⟨m1, h1, h2⟩ := ih (mapSet m (stanzaKey fk s) (stanzaRecord s)) hnd.2 hrest
    refine ⟨m1, ?_, ?_⟩
    · simp only [commitStanzas, hs, Bool.and_false, Bool.false_eq_true, if_false]
      exact h1
    · rw [h2, length_mapSet m _ _ hs, List.length_cons]
      omega

/-- After a successful sequence of commits the map holds, under every key, the record of the
last stanza with that key (or what it held before when there is none). -/
theorem commitStanzas_mapGet (fk : String) (fd : Bool) (bs : List (List String))
    (m m1 : PackageMap) (h : commitStanzas fk fd m bs = .ok m1) (k : String) :
    mapGet m1 k =
      match (bs.filter (fun s => stanzaKey fk s == k)).getLast? with
      | some s => some (stanzaRecord s)
      | none => mapGet m k := by
  induction bs generalizing m with
  | nil =>
    simp only [commitStanzas, Except.ok.injEq] at h
    subst h
    rfl
  | cons s rest ih =>
    simp only [commitStanzas] at h
    by_cases hd : (fd && mapHas m (stanzaKey fk s)) = true
    · simp [hd] at h
    · simp only [hd, Bool.false_eq_true, if_false] at h
      rw [ih _ h, mapGet_mapSet]
      by_cases hk : stanzaKey fk s = k
      · have hk1 : (stanzaKey fk s == k) = true := by simpa using hk
        rw [List.filter_cons, if_pos hk1, List.getLast?_cons]
        cases (List.filter (fun s => stanzaKey fk s == k) rest).getLast? with
        | none => simp [hk]
        | some t => rfl
      · have hk1 : ¬ (stanzaKey fk s == k) = true := by simpa using hk
        rw [List.filter_cons, if_neg hk1]
        cases (List.filter (fun s => stanzaKey fk s == k) rest).getLast? with
        | none => simp [Ne.symm hk]
        | some t => rfl

theorem commitStanzas_lenient (fk : String) (bs : List (List String)) (m : PackageMap) :
    ∃ m1, commitStanzas fk false m bs = .ok m1 := by
  induction bs generalizing m with
  | nil => exact ⟨m, rfl⟩
  | cons s rest ih => simpa [commitStanzas] using ih _

theorem nodup_keys_mapSet (m : PackageMap) (k : String) (p : Package)
    (h : (m.map Prod.fst).Nodup) : ((mapSet m k p).map Prod.fst).Nodup := by
  unfold mapSet
  rw [List.map_cons, List.nodup_cons]
  constructor
  · intro hmem
    rw [List.mem_map] at hmem
    obtain ⟨e, he, hk⟩ := hmem
    rw [List.mem_filter] at he
    simp [hk] at he
  · exact (List.Nodup.sublist ((List.filter_sublist m).map Prod.fst) h)

theorem commitStanzas_nodup (fk : String) (fd : Bool) (bs : List (List String))
    (m m1 : PackageMap) (h : commitStanzas fk fd m bs = .ok m1)
    (hm : (m.map Prod.fst).Nodup) : (m1.map Prod.fst).Nodup := by
  induction bs generalizing m with
  | nil =>
    simp only [commitStanzas, Except.ok.injEq] at h
    subst h
    exact hm
  | cons s rest ih =>
    simp only [commitStanzas] at h
    by_cases hd : (fd && mapHas m (stanzaKey fk s)) = true
    · simp [hd] at h
    · simp only [hd, Bool.false_eq_true, if_false] at h
      exact ih _ h (nodup_keys_mapSet m _ _ hm)

/-! ## Errors of the lenient mode -/

theorem Atoi_error (v : String) (e : Error) (h : Atoi v = .error e) :
    ∃ k, e = .numError "Atoi" v k := by
  unfold Atoi at h
  cases hsb : splitSign v.data with
  | mk neg body =>
    simp only [hsb] at h
    by_cases h1 : body.isEmpty = true
    · rw [if_pos h1] at h
      exact ⟨_, by cases h; rfl⟩
    · rw [if_neg h1] at h
      cases hp : parseUintLoop 0 body with
      | error k =>
        simp only [hp] at h
        exact ⟨_, by cases h; rfl⟩
      | ok un =>
        simp only [hp] at h
        split_ifs at h
        · exact ⟨_, by cases h; rfl⟩
        · exact ⟨_, by cases h; rfl⟩

theorem lineStep_lenient_error (order : List String) (ho : IsFieldOrder order) (fk : String)
    (st : ScanState) (l : String) (m : PackageMap) (e : Error)
    (h : lineStep order fk false st l = .error (m, e)) :
    m = st.packages ∧ ∃ G ∈ numericFields, ∃ v, matchField G l = some v ∧ Atoi v = .error e := by
  by_cases hl : l = ""
  · subst hl
    rw [lineStep_blank] at h
    simp at h
  · rw [lineStep_nonblank order fk false st l hl] at h
    cases hr : scanFields fk l order st.p st.key with
    | error e1 =>
      simp only [hr, Except.error.injEq, Prod.mk.injEq] at h
      obtain ⟨h1, h2⟩ := h
      subst h1 h2
      exact ⟨rfl, (scanFields_error_iff order ho fk l st.p st.key e1).mp hr⟩
    | ok r => simp [hr] at h

theorem runLines_lenient_error (order : List String) (ho : IsFieldOrder order) (fk : String)
    (st : ScanState) (lines : List String) (m : PackageMap) (e : Error)
    (h : runLines order fk false st lines = .error (m, e)) :
    ∃ v k, e = .numError "Atoi" v k := by
  induction lines generalizing st with
  | nil => simp [runLines] at h
  | cons l rest ih =>
    simp only [runLines] at h
    cases hs : lineStep order fk false st l with
    | error e1 =>
      obtain ⟨m1, e2⟩ := e1
      simp only [hs, Except.error.injEq, Prod.mk.injEq] at h
      obtain ⟨h1, h2⟩ := h
      subst h1 h2
      obtain ⟨_, G, _, v, _, hA⟩ := lineStep_lenient_error order ho fk st l m1 e2 hs
      obtain ⟨k, hk⟩ := Atoi_error v e2 hA
      exact ⟨v, k, hk⟩
    | ok st1 =>
      simp only [hs] at h
      exact ih st1 h

theorem lastValue_only (F v : String) (s : List String) (d : String) (l0 : String)
    (hl0 : matchField F l0 = some v) (hmem : l0 ∈ s)
    (honly : ∀ l ∈ s, (matchField F l).isSome = true → l = l0) : lastValue F s d = v := by
  unfold lastValue fieldValues
  cases hlast : (List.filterMap (matchField F) s).getLast? with
  | none =>
    rw [List.getLast?_eq_none_iff] at hlast
    have : v ∈ List.filterMap (matchField F) s := List.mem_filterMap.mpr ⟨l0, hmem, hl0⟩
    rw [hlast] at this
    simp at this
  | some w =>
    have hw := List.mem_of_getLast?_eq_some hlast
    obtain ⟨l, hl, hlw⟩ := List.mem_filterMap.mp hw
    have := honly l hl (by simp [hlw])
    subst this
    rw [hl0] at hlw
    simpa using hlw.symm

theorem lastInt_only (F v : String) (s : List String) (d : Int) (l0 : String)
    (hl0 : matchField F l0 = some v) (hmem : l0 ∈ s)
    (honly : ∀ l ∈ s, (matchField F l).isSome = true → l = l0) :
    lastInt F s d = atoiValue v := by
  unfold lastInt fieldValues
  cases hlast : (List.filterMap (matchField F) s).getLast? with
  | none =>
    rw [List.getLast?_eq_none_iff] at hlast
    have : v ∈ List.filterMap (matchField F) s := List.mem_filterMap.mpr ⟨l0, hmem, hl0⟩
    rw [hlast] at this
    simp at this
  | some w =>
    have hw := List.mem_of_getLast?_eq_some hlast
    obtain ⟨l, hl, hlw⟩ := List.mem_filterMap.mp hw
    have := honly l hl (by simp [hlw])
    subst this
    rw [hl0] at hlw
    simp only [Option.some.injEq] at hlw
    subst hlw
    rfl

theorem isCaseVariant_self (F : String) (hF : F ∈ Fields) :
    isCaseVariant F.data F.data = true := by
  revert F
  decide

/-- The canonical line `F: v` of a supported field matches its pattern with capture `v`. -/
theorem matchField_canonical (F : String) (hF : F ∈ Fields) (v : String) (hv : v ≠ "")
    (hnl : ∀ c ∈ v.data, c ≠ Char.ofNat 10) : matchField F (F ++ ": " ++ v) = some v :=
  matchField_variant F hF F v (isCaseVariant_self F hF) hv hnl

/-! ## Atoi on digit strings -/

theorem decimalValue_cons (c : Char) (cs : List Char) :
    decimalValue (c :: cs) = (c.toNat - 48) * 10 ^ cs.length + decimalValue cs := by
  unfold decimalValue
  rw [List.reverse_cons, List.map_append, Nat.ofDigits_append]
  simp [Nat.ofDigits_singleton]
  ring

theorem parseUintLoop_digits (cs : List Char) (n : Nat) (hdig : ∀ c ∈ cs, c.isDigit = true)
    (hlt : n * 10 ^ cs.length + decimalValue cs < 2 ^ 64) :
    parseUintLoop n cs = .ok (n * 10 ^ cs.length + decimalValue cs) := by
  induction cs generalizing n with
  | nil => simp [parseUintLoop, decimalValue]
  | cons c cs ih =>
    have hc := hdig c (List.mem_cons_self _ _)
    have hX : 1 ≤ 10 ^ cs.length := Nat.one_le_pow _ _ (by norm_num)
    rw [decimalValue_cons] at hlt ⊢
    have heq : n * 10 ^ (c :: cs).length + ((c.toNat - 48) * 10 ^ cs.length + decimalValue cs) =
        (n * 10 + (c.toNat - 48)) * 10 ^ cs.length + decimalValue cs := by
      rw [List.length_cons, pow_succ]
      ring
    rw [heq] at hlt ⊢
    have h1 : n * 10 + (c.toNat - 48) ≤ (n * 10 + (c.toNat - 48)) * 10 ^ cs.length :=
      Nat.le_mul_of_pos_right _ hX
    have h2 : n * 10 + (c.toNat - 48) < 2 ^ 64 := by omega
    have h3 : ¬ n ≥ (2 ^ 64 - 1) / 10 + 1 := by
      norm_num
      norm_num at h2
      omega
    have h4 : ¬ n * 10 + (c.toNat - 48) > 2 ^ 64 - 1 := by omega
    rw [parseUintLoop, if_pos hc, if_neg h3]
    simp only [h4, if_false]
    exact ih _ (fun x hx => hdig x (List.mem_cons_of_mem _ hx)) hlt

theorem splitSign_digit (cs : List Char) (hdig : ∀ c ∈ cs, c.isDigit = true) :
    splitSign cs = (false, cs) := by
  unfold splitSign
  split
  · have := hdig '-' (List.mem_cons_self _ _)
    exact absurd this (by decide)
  · have := hdig '+' (List.mem_cons_self _ _)
    exact absurd this (by decide)
  · rfl

/-- On a non-empty string of decimal digits that denotes a number below 2^63 `Atoi` yields
that number. -/
theorem Atoi_digits (d : String) (hd : d.data ≠ []) (hdig : ∀ c ∈ d.data, c.isDigit = true)
    (hn : decimalValue d.data < 2 ^ 63) : Atoi d = .ok (decimalValue d.data : Int) := by
  unfold Atoi
  rw [splitSign_digit d.data hdig]
  have hp := parseUintLoop_digits d.data 0 hdig (by simp; omega)
  simp only [Nat.zero_mul, Nat.zero_add] at hp
  have he : d.data.isEmpty = false := by
    cases hdd : d.data with
    | nil => exact absurd hdd hd
    | cons c cs => rfl
  simp only [he, hp, intSize]
  have h63 : ¬ decimalValue d.data ≥ 2 ^ (64 - 1) := by
    norm_num
    norm_num at hn
    exact hn
  simp only [Bool.not_false, Bool.true_and, decide_eq_true_eq, h63, if_false,
    Bool.false_and, Bool.false_eq_true]

theorem atoiValue_digits (d : String) (hd : d.data ≠ []) (hdig : ∀ c ∈ d.data, c.isDigit = true)
    (hn : decimalValue d.data < 2 ^ 63) : atoiValue d = (decimalValue d.data : Int) := by
  unfold atoiValue
  rw [Atoi_digits d hd hdig hn]

theorem digits_value (d : String) (hd : d.data ≠ []) (hdig : ∀ c ∈ d.data, c.isDigit = true) :
    d ≠ "" ∧ ∀ c ∈ d.data, c ≠ Char.ofNat 10 := by
  constructor
  · intro h
    subst h
    exact hd rfl
  · intro c hc h
    subst h
    exact absurd (hdig _ hc) (by decide)

theorem parseUintLoop_ok_digits (cs : List Char) (n un : Nat)
    (h : parseUintLoop n cs = .ok un) : cs.all Char.isDigit = true := by
  induction cs generalizing n with
  | nil => rfl
  | cons c cs ih =>
    rw [parseUintLoop] at h
    by_cases hc : c.isDigit = true
    · rw [if_pos hc] at h
      by_cases h3 : n ≥ (2 ^ 64 - 1) / 10 + 1
      · rw [if_pos h3] at h
        cases h
      · rw [if_neg h3] at h
        simp only at h
        by_cases h4 : n * 10 + (c.toNat - 48) > 2 ^ 64 - 1
        · rw [if_pos h4] at h
          cases h
        · rw [if_neg h4] at h
          simp only [List.all_cons, hc, Bool.true_and]
          exact ih _ h
    · rw [if_neg hc] at h
      cases h

theorem Atoi_ok_decimal (v : String) (n : Int) (h : Atoi v = .ok n) :
    isDecimalInteger v = true := by
  unfold Atoi at h
  unfold isDecimalInteger
  cases hv : v.data with
  | nil =>
    rw [hv] at h
    simp [splitSign] at h
  | cons c cs =>
    rw [hv] at h
    have key : ∀ neg body, splitSign (c :: cs) = (neg, body) →
        (match (neg, body) with
          | (neg, body) =>
            if body.isEmpty then (.error (.numError "Atoi" v .ErrSyntax) : Except Error Int)
            else
              match parseUintLoop 0 body with
              | .error k => .error (.numError "Atoi" v k)
              | .ok un =>
                if !neg && un ≥ 2 ^ (intSize - 1) then .error (.numError "Atoi" v .ErrRange)
                else if neg && un > 2 ^ (intSize - 1) then
                  .error (.numError "Atoi" v .ErrRange)
                else .ok (if neg then -(un : Int) else (un : Int))) = .ok n →
        body.isEmpty = false ∧ body.all Char.isDigit = true := by
      intro neg body _ hb
      simp only at hb
      by_cases he : body.isEmpty = true
      · rw [if_pos he] at hb
        cases hb
      · rw [if_neg he] at hb
        refine ⟨by simpa using he, ?_⟩
        cases hp : parseUintLoop 0 body with
        | error k => simp [hp] at hb
        | ok un => exact parseUintLoop_ok_digits body 0 un hp
    by_cases h1 : c = '-'
    · subst h1
      have := key true cs rfl h
      simp [this.1, this.2]
    · by_cases h2 : c = '+'
      · subst h2
        have := key false cs rfl h
        simp [this.1, this.2]
      · have hs : splitSign (c :: cs) = (false, c :: cs) := by
          unfold splitSign
          split
          · rename_i heq
            simp only [List.cons.injEq] at heq
            exact absurd heq.1 h1
          · rename_i heq
            simp only [List.cons.injEq] at heq
            exact absurd heq.1 h2
          · rfl
        rw [hs] at h
        have := key false (c :: cs) hs h
        simp only [h1, h2, or_self, if_false]
        exact this.2

/-- A run that meets a line with a malformed number ends with an error. -/
theorem runLines_bad_line (order : List String) (ho : IsFieldOrder order) (fk : String)
    (fd : Bool) (lines : List String) (st : ScanState) (l : String) (hl : l ∈ lines)
    (hbad : lineNumericOK l = false) :
    ∃ m e, runLines order fk fd st lines = .error (m, e) := by
  cases hr : runLines order fk fd st lines with
  | error e => exact ⟨e.1, e.2, rfl⟩
  | ok st1 =>
    have := runLines_ok_numericOK order ho fk fd lines st st1 hr l hl
    rw [hbad] at this
    cases this


theorem lastValue_absent (F : String) (s : List String) (d : String)
    (h : fieldValues F s = []) : lastValue F s d = d := by
  simp [lastValue, h]

theorem lastInt_absent (F : String) (s : List String) (d : Int)
    (h : fieldValues F s = []) : lastInt F s d = d := by
  simp [lastInt, h]

/-- Every entry of a map returned without error is the record of a stanza of the input with
that key, namely of the last such stanza. -/
theorem Parse_entry_stanza (lines : List String) (fk : String) (hfk : fk ∈ Fields) (fd : Bool)
    (m : PackageMap) (h : Parse lines fk fd = { packages := some m, err := none })
    (k : String) :
    mapGet m k =
      (((stanzasOf lines).filter (fun s => stanzaKey fk s == k)).getLast?).map stanzaRecord := by
  have hok := Parse_ok_numericOK lines fk hfk fd (by rw [h])
  rw [Parse_eq_commitResult lines fk hfk fd hok] at h
  cases hc : commitStanzas fk fd [] (stanzasOf lines) with
  | error e =>
    obtain ⟨m1, e1⟩ := e
    simp [hc, commitResult] at h
  | ok m1 =>
    simp only [hc, commitResult, ParseResult.mk.injEq, Option.some.injEq, and_true] at h
    subst h
    rw [commitStanzas_mapGet fk fd _ [] m1 hc k]
    cases (List.filter (fun s => stanzaKey fk s == k) (stanzasOf lines)).getLast? <;> rfl

theorem runLines_joinStanzas (order : List String) (ho : IsFieldOrder order) (fk : String)
    (hfk : fk ∈ Fields) (fd : Bool) (bs : List (List String))
    (hlines : ∀ s ∈ bs, ∀ l ∈ s, l ≠ "")
    (hnum : ∀ s ∈ bs, ∀ l ∈ s, lineNumericOK l = true) (m : PackageMap) :
    runLines order fk fd { packages := m, p := {}, key := "" } (joinStanzas bs) =
      match commitStanzas fk fd m bs with
      | .error e => .error e
      | .ok m1 => .ok { packages := m1, p := {}, key := "" } := by
  induction bs generalizing m with
  | nil => rfl
  | cons s rest ih =>
    have e1 : joinStanzas (s :: rest) = (s ++ [""]) ++ joinStanzas rest := by
      simp [joinStanzas]
    rw [e1, runLines_append, runLines_stanza_blank order ho fk hfk fd m s
      (hlines s (List.mem_cons_self _ _)) (hnum s (List.mem_cons_self _ _))]
    by_cases hd : (fd && mapHas m (stanzaKey fk s)) = true
    · simp [hd, commitStanzas]
    · simp only [hd, Bool.false_eq_true, if_false, commitStanzas]
      exact ih (fun t ht => hlines t (List.mem_cons_of_mem _ ht))
        (fun t ht => hnum t (List.mem_cons_of_mem _ ht)) _

theorem commitStanzas_mapHas (fk : String) (fd : Bool) (bs : List (List String))
    (m m1 : PackageMap) (h : commitStanzas fk fd m bs = .ok m1) (k : String)
    (hk : k ∈ bs.map (stanzaKey fk)) : mapHas m1 k = true := by
  rw [mapHas_eq_isSome, commitStanzas_mapGet fk fd bs m m1 h k]
  cases hlast : (List.filter (fun s => stanzaKey fk s == k) bs).getLast? with
  | some s => rfl
  | none =>
    exfalso
    rw [List.getLast?_eq_none_iff, List.filter_eq_nil_iff] at hlast
    obtain ⟨s, hs, hsk⟩ := List.mem_map.mp hk
    exact hlast s hs (by simpa using hsk)

theorem stringsContains_mid (a sub b : String) : stringsContains (a ++ sub ++ b) sub = true := by
  unfold stringsContains
  rw [List.any_eq_true]
  refine ⟨sub.data ++ b.data, ?_, ?_⟩
  · rw [List.mem_tails]
    exact ⟨a.data, by simp [String.data_append]⟩
  · rw [List.isPrefixOf_iff_prefix]
    exact ⟨b.data, rfl⟩

theorem duplicateMsg_contains (fk k : String) :
    stringsContains (duplicateMsg fk k) fk = true ∧
    stringsContains (duplicateMsg fk k) k = true := by
  constructor
  · have := stringsContains_mid "duplicate package for field key " fk (": " ++ k)
    have e : duplicateMsg fk k = "duplicate package for field key " ++ fk ++ (": " ++ k) := by
      simp [duplicateMsg, String.append_assoc]
    rw [e]
    exact this
  · have := stringsContains_mid ("duplicate package for field key " ++ fk ++ ": ") k ""
    have e : duplicateMsg fk k = "duplicate package for field key " ++ fk ++ ": " ++ k ++ "" := by
      simp [duplicateMsg]
    rw [e]
    exact this

/-! ## Letter case of field names -/

theorem isCaseVariant_ne_nil (G : String) (hG : G ∈ Fields) (f : List Char)
    (hf : isCaseVariant f G.data = true) : f ≠ [] := by
  intro h
  subst h
  have : G.data ≠ [] := by
    revert G
    decide
  cases hd : G.data with
  | nil => exact this hd
  | cons c cs => simp [hd, isCaseVariant] at hf

theorem caseChanged_blank (l l1 : String) (h : CaseChanged l l1) : l = "" ↔ l1 = "" := by
  rcases h with h | ⟨G, hG, f, f1, rest, hf, hf1, hl, hl1⟩
  · rw [h]
  · have n1 : l ≠ "" := by
      intro h0
      subst h0
      have : f = [] := by
        have := congrArg List.length hl
        simp at this
        exact List.length_eq_zero.mp (by omega)
      exact isCaseVariant_ne_nil G hG f hf this
    have n2 : l1 ≠ "" := by
      intro h0
      subst h0
      have : f1 = [] := by
        have := congrArg List.length hl1
        simp at this
        exact List.length_eq_zero.mp (by omega)
      exact isCaseVariant_ne_nil G hG f1 hf1 this
    exact ⟨fun h => absurd h n1, fun h => absurd h n2⟩

theorem caseChanged_matchField (l l1 : String) (h : CaseChanged l l1) (F : String)
    (hF : F ∈ Fields) : matchField F l = matchField F l1 := by
  rcases h with h | ⟨G, hG, f, f1, rest, hf, hf1, hl, hl1⟩
  · rw [h]
  · by_cases hFG : F = G
    · subst hFG
      unfold matchField
      rw [hl, hl1, matchLiteralFold_append, matchLiteralFold_append,
        matchLiteralFold_variant F.data f rest (Fields_fold_cases F hF) hf,
        matchLiteralFold_variant F.data f1 rest (Fields_fold_cases F hF) hf1]
    · have e1 : l = String.mk (f ++ rest) := by
        rw [← hl]
      have e2 : l1 = String.mk (f1 ++ rest) := by
        rw [← hl1]
      rw [e1, e2, matchField_other F G hF hG hFG f rest hf,
        matchField_other F G hF hG hFG f1 rest hf1]

theorem scanFields_congr (fk l l1 : String) (order : List String)
    (h : ∀ F ∈ order, matchField F l = matchField F l1) (p : Package) (key : String) :
    scanFields fk l order p key = scanFields fk l1 order p key := by
  induction order generalizing p key with
  | nil => rfl
  | cons F rest ih =>
    have hrest : ∀ G ∈ rest, matchField G l = matchField G l1 :=
      fun G hG => h G (List.mem_cons_of_mem _ hG)
    simp only [scanFields, ← h F (List.mem_cons_self _ _)]
    cases matchField F l with
    | none => exact ih hrest p key
    | some v =>
      simp only
      cases setField F v p with
      | error e => rfl
      | ok p1 => exact ih hrest p1 _

theorem lineStep_caseChanged (fk : String) (fd : Bool) (st : ScanState) (l l1 : String)
    (h : CaseChanged l l1) :
    lineStep Fields fk fd st l = lineStep Fields fk fd st l1 := by
  have hb := caseChanged_blank l l1 h
  have hm := scanFields_congr fk l l1 Fields (fun F hF => caseChanged_matchField l l1 h F hF)
  by_cases hl : l = ""
  · have hl1 := hb.mp hl
    rw [hl, hl1]
  · have hl1 : l1 ≠ "" := fun h1 => hl (hb.mpr h1)
    rw [lineStep_nonblank Fields fk fd st l hl, lineStep_nonblank Fields fk fd st l1 hl1, hm]

theorem uptoLastBlank_split (lines : List String) :
    ∃ tail, lines = uptoLastBlank lines ++ tail ∧ (∀ l ∈ tail, l ≠ "") ∧
      FreshAfter (uptoLastBlank lines) := by
  refine ⟨(lines.reverse.takeWhile (fun l => l != "")).reverse, ?_, ?_, ?_⟩
  · unfold uptoLastBlank
    rw [← List.reverse_append, List.takeWhile_append_dropWhile, List.reverse_reverse]
  · intro l hl
    rw [List.mem_reverse] at hl
    simpa using List.mem_takeWhile_imp hl
  · unfold FreshAfter uptoLastBlank
    cases hd : lines.reverse.dropWhile (fun l => l != "") with
    | nil => left; rfl
    | cons x xs =>
      right
      have hx : ¬ ((fun l : String => l != "") x = true) := by
        have := List.head_dropWhile_not (fun l : String => l != "") lines.reverse
          (by rw [hd]; simp)
        simpa [hd] using this
      have hx1 : x = "" := by simpa using hx
      subst hx1
      simp [List.getLast?_reverse]

/-- A run over lines without a blank one leaves the map as it is. -/
theorem runLines_nonblank_packages (order : List String) (fk : String) (fd : Bool)
    (s : List String) (hs : ∀ l ∈ s, l ≠ "") (st st1 : ScanState)
    (h : runLines order fk fd st s = .ok st1) : st1.packages = st.packages := by
  rw [runLines_stanza order fk fd s hs] at h
  cases hr : scanStanza order fk s st.p st.key with
  | error e => simp [hr] at h
  | ok r =>
    simp only [hr, Except.ok.injEq] at h
    subst h
    rfl

theorem accepted_of_packages (lines : List String) (fk : String) (fd : Bool) (m : PackageMap)
    (e : Option Error) (h : Parse lines fk fd = { packages := some m, err := e }) :
    stringsContains (stringsJoin Fields "|") fk = true := by
  cases hx : stringsContains (stringsJoin Fields "|") fk with
  | true => rfl
  | false => simp [Parse, ParseWith, hx] at h
/-! ## Lines that no pattern matches -/

theorem lineStep_unmatched (order : List String) (fk : String) (fd : Bool) (st : ScanState)
    (l : String) (hl : l ≠ "") (hno : ∀ F ∈ order, matchField F l = none) :
    lineStep order fk fd st l = .ok st := by
  rw [lineStep_nonblank order fk fd st l hl, scanFields_none fk l order st.p st.key hno]

/-- A non-blank line that no pattern matches can be inserted or deleted anywhere without
changing what `Parse` returns. -/
theorem Parse_unmatched_line (pre post : List String) (l : String) (fk : String) (fd : Bool)
    (hl : l ≠ "") (hno : ∀ F ∈ Fields, matchField F l = none) :
    Parse (pre ++ l :: post) fk fd = Parse (pre ++ post) fk fd := by
  unfold Parse ParseWith
  by_cases hc : stringsContains (stringsJoin Fields "|") fk = true
  · simp only [hc, Bool.not_true, Bool.false_eq_true, if_false, scanLoop_eq_resultOf,
      runLines_append]
    cases runLines Fields fk fd initState pre with
    | error e => rfl
    | ok st1 => simp only [runLines, lineStep_unmatched Fields fk fd st1 l hl hno]
  · simp [hc]

theorem matchField_none_of_not_startsWith (F l : String) (h : startsWithField F l = false) :
    matchField F l = none := by
  unfold startsWithField at h
  unfold matchField
  cases hm : matchLiteralFold (F.data ++ [':', ' ']) l.data with
  | none => rfl
  | some r => simp [hm] at h

/-- A line made of a supported field name in any letter case and `": "`, with nothing
behind, matches none of the patterns. -/
theorem matchField_empty_value (F : String) (hF : F ∈ Fields) (f : String)
    (hf : isCaseVariant f.data F.data = true) (G : String) (hG : G ∈ Fields) :
    matchField G (f ++ ": ") = none := by
  by_cases hGF : G = F
  · subst hGF
    have hdata : (f ++ ": ").data = f.data ++ [':', ' '] := by
      simp [String.data_append]
    have h1 : matchLiteralFold (G.data ++ [':', ' ']) (f ++ ": ").data = some [] := by
      rw [hdata, matchLiteralFold_append,
        matchLiteralFold_variant G.data f.data _ (Fields_fold_cases G hG) hf]
      simp [matchLiteralFold_sep]
    unfold matchField
    rw [h1]
    simp
  · have e : f ++ ": " = String.mk (f.data ++ [':', ' ']) := by
      apply String.ext
      simp [String.data_append]
    rw [e]
    exact matchField_other G F hG hF hGF f.data _ hf

/-! ## Anchoring and the order of the patterns -/

theorem matchLiteralFold_split (pat t rest : List Char)
    (h : matchLiteralFold pat t = some rest) :
    ∃ f, t = f ++ rest ∧ f.length = pat.length := by
  induction pat generalizing t with
  | nil =>
    simp only [matchLiteralFold, Option.some.injEq] at h
    exact ⟨[], by simp [h], rfl⟩
  | cons r pat ih =>
    cases t with
    | nil => simp [matchLiteralFold] at h
    | cons c t =>
      by_cases hc : c ∈ simpleFoldOrbit r
      · simp only [matchLiteralFold, hc, if_true] at h
        obtain ⟨f, hf, hlen⟩ := ih t h
        exact ⟨c :: f, by simp [hf], by simp [hlen]⟩
      · simp [matchLiteralFold, hc] at h

/-- A match begins at the first character of the line: the line is the field name (in some
letter case), then `": "`, then the captured value. -/
theorem matchField_anchored (F l v : String) (h : matchField F l = some v) :
    ∃ f : List Char, l.data = f ++ ':' :: ' ' :: v.data ∧ f.length = F.data.length ∧
      v.data ≠ [] := by
  unfold matchField at h
  cases hm : matchLiteralFold (F.data ++ [':', ' ']) l.data with
  | none => simp [hm] at h
  | some rest =>
    simp only [hm] at h
    split_ifs at h with hr
    simp only [Option.some.injEq] at h
    subst h
    rw [matchLiteralFold_append] at hm
    cases hm1 : matchLiteralFold F.data l.data with
    | none => simp [hm1] at hm
    | some r1 =>
      simp only [hm1, Option.some_bind] at hm
      obtain ⟨f, hf, hlen⟩ := matchLiteralFold_split _ _ _ hm1
      obtain ⟨g, hg, hglen⟩ := matchLiteralFold_split _ _ _ hm
      have hg2 : g = [':', ' '] := by
        match g, hglen with
        | [a, b], _ =>
          rw [hg] at hm
          simp only [List.cons_append, List.nil_append, matchLiteralFold] at hm
          have ha : a = ':' := by
            by_contra hne
            have : a ∉ simpleFoldOrbit ':' := by
              have e : simpleFoldOrbit ':' = [':'] := by decide
              simpa [e] using hne
            simp [this] at hm
          have hb : b = ' ' := by
            by_contra hne
            have : b ∉ simpleFoldOrbit ' ' := by
              have e : simpleFoldOrbit ' ' = [' '] := by decide
              simpa [e] using hne
            simp [this] at hm
          rw [ha, hb]
      subst hg2
      exact ⟨f, by rw [hf, hg]; rfl, hlen, hr.1⟩

theorem isFieldOrder_of_perm (order : List String) (h : order.Perm Fields) :
    IsFieldOrder order :=
  ⟨(h.nodup_iff).mpr Fields_isFieldOrder.1, fun _ => h.mem_iff⟩

/-- The field loop over a line gives the same result in every order of the patterns. -/
theorem scanFields_order (order : List String) (ho : IsFieldOrder order) (fk l : String)
    (p : Package) (key : String) :
    scanFields fk l order p key = scanFields fk l Fields p key := by
  rcases scanFields_cases order ho fk l p key with ⟨hn, h1⟩ | ⟨G, hG, v, hm, h1⟩
  · rw [h1, scanFields_none fk l Fields p key hn]
  · rw [h1, scanFields_single fk l Fields p key (fun _ h => h) Fields_isFieldOrder.1 G v hG hm]

theorem lineStep_order (order : List String) (ho : IsFieldOrder order) (fk : String)
    (fd : Bool) (st : ScanState) (l : String) :
    lineStep order fk fd st l = lineStep Fields fk fd st l := by
  unfold lineStep
  cases commitOnBlank fk fd l st with
  | error e => rfl
  | ok st1 => simp only [scanFields_order order ho]

theorem scanLoopAt_eq (orderAt : Nat → List String) (ho : ∀ i, IsFieldOrder (orderAt i))
    (fk : String) (fd : Bool) (lines : List String) (i : Nat) (st : ScanState) :
    scanLoopAt orderAt fk fd i st lines = scanLoop Fields fk fd st lines := by
  induction lines generalizing i st with
  | nil => rfl
  | cons l rest ih =>
    simp only [scanLoopAt, scanLoop, lineStep_order (orderAt i) (ho i)]
    cases lineStep Fields fk fd st l with
    | error e => rfl
    | ok st1 => exact ih (i + 1) st1
/-! ## Commits, forward -/

/-- After a successful `Parse` on lines that leave nothing pending, a further stanza with
well-formed numbers and its blank line commit the stanza's record under its key (in strict
mode provided the key is new). -/
theorem Parse_commit_forward (pre s : List String) (fk : String) (hfk : fk ∈ Fields)
    (fd : Bool) (hpre : FreshAfter pre) (hs : ∀ l ∈ s, l ≠ "")
    (hok : ∀ l ∈ s, lineNumericOK l = true) (m0 : PackageMap)
    (h0 : Parse pre fk fd = { packages := some m0, err := none })
    (hdup : fd = true → mapHas m0 (stanzaKey fk s) = false) :
    Parse (pre ++ s ++ [""]) fk fd =
      { packages := some (mapSet m0 (stanzaKey fk s) (stanzaRecord s)), err := none } := by
  have hacc := Fields_accepted fk hfk
  rw [Parse_eq_resultOf _ fk fd hacc, resultOf_ok_iff] at h0
  obtain ⟨st1, h1, hm⟩ := h0
  obtain ⟨hp, hk⟩ := runLines_freshAfter Fields fk fd st1 pre hpre h1
  have hst1 : st1 = { packages := m0, p := {}, key := "" } := by
    cases st1
    simp_all
  rw [Parse_eq_resultOf _ fk fd hacc, List.append_assoc, runLines_append, h1]
  simp only
  rw [hst1, runLines_stanza_blank Fields Fields_isFieldOrder fk hfk fd m0 s hs hok]
  have : ¬ (fd && mapHas m0 (stanzaKey fk s)) = true := by
    cases fd with
    | false => simp
    | true => simp [hdup rfl]
  simp [this, resultOf]

/-- Strict mode, first collision: the stanzas before `s` have distinct keys, so they are all
committed; `s` repeats one of their keys, so its blank line ends the call. -/
theorem Parse_strict_collision (stanzas : List (List String)) (s : List String)
    (fk : String) (hfk : fk ∈ Fields)
    (hlines : ∀ t ∈ stanzas, ∀ l ∈ t, l ≠ "") (hs : ∀ l ∈ s, l ≠ "")
    (hnum : ∀ t ∈ stanzas, ∀ l ∈ t, lineNumericOK l = true)
    (hnums : ∀ l ∈ s, lineNumericOK l = true)
    (hdistinct : (stanzas.map (stanzaKey fk)).Nodup)
    (hcoll : stanzaKey fk s ∈ stanzas.map (stanzaKey fk)) :
    ∃ m, commitStanzas fk true [] stanzas = .ok m ∧ m.length = stanzas.length ∧
      Parse (joinStanzas stanzas) fk true = { packages := some m, err := none } ∧
      ∀ post, Parse (joinStanzas stanzas ++ s ++ "" :: post) fk true =
        { packages := some m,
          err := some (.errorsNew (duplicateMsg fk (stanzaKey fk s))) } := by
  obtain ⟨m, hm, hlen⟩ := commitStanzas_distinct fk true stanzas [] hdistinct
    (fun _ _ => rfl)
  have hacc := Fields_accepted fk hfk
  have hrun := runLines_joinStanzas Fields Fields_isFieldOrder fk hfk true stanzas
    hlines hnum []
  rw [hm] at hrun
  simp only at hrun
  refine ⟨m, hm, by simpa using hlen, ?_, ?_⟩
  · rw [Parse_eq_resultOf _ fk true hacc]
    show resultOf (runLines Fields fk true { packages := [], p := {}, key := "" } _) = _
    rw [hrun]
    rfl
  · intro post
    have e1 : joinStanzas stanzas ++ s ++ "" :: post =
        joinStanzas stanzas ++ ((s ++ [""]) ++ post) := by simp
    rw [Parse_eq_resultOf _ fk true hacc, e1, runLines_append]
    show resultOf (match runLines Fields fk true
      { packages := [], p := {}, key := "" } (joinStanzas stanzas) with
      | .error e => .error e
      | .ok st1 => runLines Fields fk true st1 (s ++ [""] ++ post)) = _
    rw [hrun]
    simp only
    rw [runLines_append, runLines_stanza_blank Fields Fields_isFieldOrder fk hfk true m s
      hs hnums]
    have hhas := commitStanzas_mapHas fk true stanzas [] m hm _ hcoll
    simp [hhas, resultOf]

/-! ## The map returned with an error -/

theorem lineStep_error_packages (order : List String) (fk : String) (fd : Bool)
    (st : ScanState) (l : String) (m : PackageMap) (e : Error)
    (h : lineStep order fk fd st l = .error (m, e)) : m = st.packages := by
  by_cases hl : l = ""
  · subst hl
    rw [lineStep_blank] at h
    split_ifs at h
    simp only [Except.error.injEq, Prod.mk.injEq] at h
    exact h.1.symm
  · rw [lineStep_nonblank order fk fd st l hl] at h
    cases hr : scanFields fk l order st.p st.key with
    | error e1 =>
      simp only [hr, Except.error.injEq, Prod.mk.injEq] at h
      exact h.1.symm
    | ok r => simp [hr] at h

/-- The map that comes with an error is the map of the state reached just before the line
that ended the run. -/
theorem runLines_error_split (order : List String) (fk : String) (fd : Bool)
    (lines : List String) (st : ScanState) (m : PackageMap) (e : Error)
    (h : runLines order fk fd st lines = .error (m, e)) :
    ∃ pre post st1, lines = pre ++ post ∧ runLines order fk fd st pre = .ok st1 ∧
      st1.packages = m := by
  induction lines generalizing st with
  | nil => simp [runLines] at h
  | cons l rest ih =>
    simp only [runLines] at h
    cases hs : lineStep order fk fd st l with
    | error e1 =>
      obtain ⟨m1, e2⟩ := e1
      simp only [hs, Except.error.injEq, Prod.mk.injEq] at h
      have := lineStep_error_packages order fk fd st l m1 e2 hs
      exact ⟨[], l :: rest, st, rfl, rfl, by rw [← h.1, this]⟩
    | ok st2 =>
      simp only [hs] at h
      obtain ⟨pre, post, st1, h1, h2, h3⟩ := ih st2 h
      refine ⟨l :: pre, post, st1, by rw [h1]; rfl, ?_, h3⟩
      simp only [runLines, hs]
      exact h2

/-- Every non-nil map that `Parse` returns, with or without an error, is the map of a
successful `Parse` on the first lines of the input. -/
theorem Parse_packages_of_initial (lines : List String) (fk : String) (fd : Bool)
    (m : PackageMap) (e : Option Error)
    (h : Parse lines fk fd = { packages := some m, err := e }) :
    ∃ pre post, lines = pre ++ post ∧ Parse pre fk fd = { packages := some m, err := none } := by
  have hacc := accepted_of_packages lines fk fd m e h
  rw [Parse_eq_resultOf _ fk fd hacc] at h
  cases hr : runLines Fields fk fd initState lines with
  | ok st =>
    simp only [hr, resultOf, ParseResult.mk.injEq, Option.some.injEq] at h
    refine ⟨lines, [], by simp, ?_⟩
    rw [Parse_eq_resultOf _ fk fd hacc, hr, resultOf_ok_iff]
    exact ⟨st, rfl, h.1⟩
  | error e1 =>
    obtain ⟨m1, e2⟩ := e1
    simp only [hr, resultOf, ParseResult.mk.injEq, Option.some.injEq] at h
    obtain ⟨pre, post, st1, h1, h2, h3⟩ := runLines_error_split Fields fk fd lines
      initState m1 e2 hr
    refine ⟨pre, post, h1, ?_⟩
    rw [Parse_eq_resultOf _ fk fd hacc, h2, resultOf_ok_iff]
    exact ⟨st1, rfl, by rw [h3, h.1]⟩

theorem mem_stanzasFrom (cur lines s : List String) (hs : s ∈ stanzasFrom cur lines) :
    ∀ l ∈ s, l ∈ cur ∨ l ∈ lines := by
  induction lines generalizing cur with
  | nil => simp [stanzasFrom] at hs
  | cons x rest ih =>
    by_cases hx : x = ""
    · simp only [stanzasFrom, hx, if_true, List.mem_cons] at hs
      rcases hs with rfl | hs
      · intro l hl
        exact Or.inl hl
      · intro l hl
        rcases ih [] hs l hl with h | h
        · simp at h
        · exact Or.inr (List.mem_cons_of_mem _ h)
    · simp only [stanzasFrom, hx, if_false] at hs
      intro l hl
      rcases ih (cur ++ [x]) hs l hl with h | h
      · rcases List.mem_append.mp h with h | h
        · exact Or.inl h
        · simp only [List.mem_singleton] at h
          exact Or.inr (by rw [h]; exact List.mem_cons_self _ _)
      · exact Or.inr (List.mem_cons_of_mem _ h)

theorem mem_stanzasOf (lines s : List String) (hs : s ∈ stanzasOf lines) :
    ∀ l ∈ s, l ∈ lines := by
  intro l hl
  rcases mem_stanzasFrom [] lines s hs l hl with h | h
  · simp at h
  · exact h

theorem matchField_value_ne_empty (F l v : String) (h : matchField F l = some v) : v ≠ "" := by
  obtain ⟨_, _, _, hv⟩ := matchField_anchored F l v h
  intro h0
  subst h0
  exact hv rfl

theorem Atoi_of_lineNumericOK (l : String) (hl : lineNumericOK l = true) (G : String)
    (hG : G ∈ numericFields) (v : String) (hm : matchField G l = some v) :
    Atoi v = .ok (atoiValue v) := by
  cases hA : Atoi v with
  | ok n => simp [atoiValue, hA]
  | error e => exact absurd ⟨G, hG, v, hm, hA⟩ ((lineNumericOK_iff l).mp hl e)
theorem stanzaKey_absent (fk : String) (s : List String) (h : fieldValues fk s = []) :
    stanzaKey fk s = "" :=
  lastValue_absent fk s "" h

theorem lineNumericOK_blank : lineNumericOK "" = true := by
  simp [lineNumericOK, matchField_empty]

theorem joinStanzas_numericOK (bs : List (List String))
    (h : ∀ s ∈ bs, ∀ l ∈ s, lineNumericOK l = true) :
    ∀ l ∈ joinStanzas bs, lineNumericOK l = true := by
  induction bs with
  | nil => simp [joinStanzas]
  | cons s rest ih =>
    intro l hl
    simp only [joinStanzas, List.mem_append, List.mem_cons] at hl
    rcases hl with h1 | h1 | h1
    · exact h s (List.mem_cons_self _ _) l h1
    · subst h1
      exact lineNumericOK_blank
    · exact ih (fun t ht => h t (List.mem_cons_of_mem _ ht)) l h1

/-- Lenient commits of stanzas that all have the empty key leave one entry, that of the last
stanza. -/
theorem commitStanzas_keyless (fk : String) (bs : List (List String))
    (hk : ∀ s ∈ bs, stanzaKey fk s = "") (m : PackageMap)
    (hm : m = [] ∨ ∃ r, m = [("", r)]) :
    commitStanzas fk false m bs =
      .ok (match bs.getLast? with
           | none => m
           | some last => [("", stanzaRecord last)]) := by
  induction bs generalizing m with
  | nil => rfl
  | cons s rest ih =>
    have hs := hk s (List.mem_cons_self _ _)
    have hset : mapSet m (stanzaKey fk s) (stanzaRecord s) = [("", stanzaRecord s)] := by
      rw [hs]
      rcases hm with h | ⟨r, h⟩ <;> subst h <;> simp [mapSet]
    simp only [commitStanzas, Bool.false_and, Bool.false_eq_true, if_false, hset]
    rw [ih (fun t ht => hk t (List.mem_cons_of_mem _ ht)) _ (Or.inr ⟨_, rfl⟩),
      List.getLast?_cons]
    cases rest.getLast? <;> rfl
/-! ## Several lines for one field -/

theorem fieldValues_append (G : String) (a b : List String) :
    fieldValues G (a ++ b) = fieldValues G a ++ fieldValues G b := by
  simp [fieldValues]

theorem fieldValues_none (G : String) (s : List String) (h : ∀ x ∈ s, matchField G x = none) :
    fieldValues G s = [] := by
  unfold fieldValues
  rw [List.filterMap_eq_nil_iff]
  exact h

/-- Values of the last line for `F` when no line behind `l` assigns `F`. -/
theorem fieldValues_last (F : String) (s1 s2 : List String) (l v : String)
    (hm : matchField F l = some v) (hlast : ∀ x ∈ s2, matchField F x = none) :
    (fieldValues F (s1 ++ l :: s2)).getLast? = some v := by
  rw [fieldValues_append]
  have : fieldValues F (l :: s2) = [v] := by
    have h2 := fieldValues_none F s2 hlast
    unfold fieldValues at h2 ⊢
    rw [List.filterMap_cons_some hm, h2]
  rw [this, List.getLast?_append_cons]
  rfl

/-- Deleting the lines for `F` leaves the values of every other supported field in place. -/
theorem fieldValues_filter_other (F G : String) (hF : F ∈ Fields) (hG : G ∈ Fields)
    (hGF : G ≠ F) (s : List String) :
    fieldValues G (s.filter (fun x => (matchField F x).isNone)) = fieldValues G s := by
  unfold fieldValues
  induction s with
  | nil => rfl
  | cons x s ih =>
    cases hx : matchField F x with
    | none =>
      rw [List.filter_cons, if_pos (by simp [hx]), List.filterMap_cons, List.filterMap_cons, ih]
    | some w =>
      have hGx : matchField G x = none := by
        cases hg : matchField G x with
        | none => rfl
        | some u =>
          exact absurd (matchField_unique G F hG hF x (by simp [hg]) (by simp [hx])) hGF
      rw [List.filter_cons, if_neg (by simp [hx]), List.filterMap_cons_none hGx, ih]

theorem getLast_fieldValues_filter (F G : String) (hF : F ∈ Fields) (hG : G ∈ Fields)
    (s1 s2 : List String) (l v : String) (hm : matchField F l = some v) :
    (fieldValues G (s1.filter (fun x => (matchField F x).isNone) ++ l :: s2)).getLast? =
      (fieldValues G (s1 ++ l :: s2)).getLast? := by
  by_cases hGF : G = F
  · subst hGF
    have e : ∀ a : List String, fieldValues G (a ++ l :: s2) =
        fieldValues G a ++ v :: fieldValues G s2 := by
      intro a
      rw [fieldValues_append]
      congr 1
      unfold fieldValues
      rw [List.filterMap_cons_some hm]
    rw [e, e, List.getLast?_append_cons, List.getLast?_append_cons]
  · rw [fieldValues_append, fieldValues_append, fieldValues_filter_other F G hF hG hGF]

theorem stanzaRecord_congr (s t : List String)
    (h : ∀ G ∈ Fields, (fieldValues G s).getLast? = (fieldValues G t).getLast?) :
    stanzaRecord s = stanzaRecord t := by
  have hv : ∀ G ∈ Fields, ∀ d, lastValue G s d = lastValue G t d := by
    intro G hG d
    unfold lastValue
    rw [h G hG]
  have hi : ∀ G ∈ Fields, ∀ d, lastInt G s d = lastInt G t d := by
    intro G hG d
    unfold lastInt
    rw [h G hG]
  unfold stanzaRecord
  rw [hv "Package" (by decide), hv "Priority" (by decide), hv "Section" (by decide),
    hi "Installed-Size" (by decide), hv "Maintainer" (by decide),
    hv "Architecture" (by decide), hv "Version" (by decide), hv "Depends" (by decide),
    hv "Filename" (by decide), hi "Size" (by decide), hv "MD5sum" (by decide),
    hv "SHA1" (by decide), hv "SHA256" (by decide)]

/-! ## The claims -/

/-- C1, evaluated at the failing input: `"Pack"` is not one of the thirteen supported field
names, but it occurs inside the joined list of names, so `Parse` does not reject it. The
input is scanned, no error is returned, and the stanza is stored under the empty key. -/
theorem Parse_accepts_part_of_a_field_name :
    "Pack" ∉ Fields ∧
    Parse ["Package: foo", ""] "Pack" false =
      { packages := some [("", { Package := "foo" })], err := none } := by
  decide

/-- C2 as stated fails: one non-empty stanza with key field `Package: a`, terminated by two
blank lines, gives two entries (the second blank line commits an empty record under the
empty key), and with `failOnDup` a third blank line makes `Parse` fail. -/
theorem Parse_blank_run_extra_entry :
    Parse ["Package: a", "", ""] "Package" false =
      { packages := some [("", {}), ("a", { Package := "a" })], err := none } ∧
    (Parse ["Package: a", "", "", ""] "Package" true).err =
      some (.errorsNew "duplicate package for field key Package: ") := by
  decide

/-- C2, amended: for input made of N non-empty stanzas, each terminated by exactly one blank
line, in which every stanza carries the key field, the keys are pairwise distinct (the key of
a stanza is the value of its last key-field line) and all numeric fields are well-formed,
`Parse` with a supported key field and either value of `failOnDup` returns no error and a map
with exactly N entries. -/
theorem Parse_count_distinct_keys (stanzas : List (List String)) (fieldKey : String)
    (failOnDup : Bool) (hkey : fieldKey ∈ Fields)
    (hlines : ∀ s ∈ stanzas, s ≠ [] ∧ ∀ l ∈ s, l ≠ "")
    (_hcarry : ∀ s ∈ stanzas, fieldValues fieldKey s ≠ [])
    (hnum : ∀ s ∈ stanzas, ∀ l ∈ s, lineNumericOK l = true)
    (hdistinct : (stanzas.map (stanzaKey fieldKey)).Nodup) :
    ∃ m, Parse (joinStanzas stanzas) fieldKey failOnDup = { packages := some m, err := none } ∧
      m.length = stanzas.length := by
  have hok : ∀ l ∈ joinStanzas stanzas, lineNumericOK l = true := by
    clear hdistinct
    induction stanzas with
    | nil => simp [joinStanzas]
    | cons s rest ih =>
      intro l hl
      simp only [joinStanzas, List.mem_append, List.mem_cons] at hl
      rcases hl with h | h | h
      · exact hnum s (List.mem_cons_self _ _) l h
      · subst h
        simp [lineNumericOK, matchField_empty]
      · exact ih (fun t ht => hlines t (List.mem_cons_of_mem _ ht))
          (fun t ht => _hcarry t (List.mem_cons_of_mem _ ht))
          (fun t ht => hnum t (List.mem_cons_of_mem _ ht)) l h
  rw [Parse_eq_commitResult _ fieldKey hkey failOnDup hok,
    stanzasOf_joinStanzas _ (fun s hs => (hlines s hs).2)]
  obtain ⟨m, h1, h2⟩ := commitStanzas_distinct fieldKey failOnDup stanzas [] hdistinct
    (fun _ _ => rfl)
  exact ⟨m, by rw [h1]; rfl, by simpa using h2⟩

theorem Parse_count_distinct_keys_witness :
    ∃ m, Parse (joinStanzas [["Package: a", "Size: 12"], ["Package: b"]]) "Package" true =
        { packages := some m, err := none } ∧
      m.length = [["Package: a", "Size: 12"], ["Package: b"]].length :=
  Parse_count_distinct_keys [["Package: a", "Size: 12"], ["Package: b"]] "Package" true
    (by decide) (by decide) (by decide) (by decide) (by decide)

/-- C3: for every text field F and every non-empty value v without line feed, if a stanza
terminated by a blank line contains the line `F: v` as its only F line, then the record
committed for that stanza (the entry stored under the stanza's key once its blank line is
read) has its F attribute equal to exactly v, nothing trimmed. -/
theorem Parse_text_value_exact (pre s : List String) (fieldKey : String) (failOnDup : Bool)
    (F v : String) (hkey : fieldKey ∈ Fields) (hF : F ∈ textFields) (hv : v ≠ "")
    (hnl : ∀ c ∈ v.data, c ≠ Char.ofNat 10) (hpre : FreshAfter pre)
    (hs : ∀ l ∈ s, l ≠ "") (hmem : F ++ ": " ++ v ∈ s)
    (honly : ∀ l ∈ s, (matchField F l).isSome = true → l = F ++ ": " ++ v)
    (m : PackageMap)
    (h : Parse (pre ++ s ++ [""]) fieldKey failOnDup = { packages := some m, err := none }) :
    ∃ r, mapGet m (stanzaKey fieldKey s) = some r ∧ textAttr F r = v := by
  obtain ⟨m0, _, hm, _, _⟩ := Parse_commit pre s fieldKey hkey failOnDup hpre hs m h
  refine ⟨stanzaRecord s, ?_, ?_⟩
  · rw [hm, mapGet_mapSet, if_pos rfl]
  · rw [stanzaRecord_text F hF]
    exact lastValue_only F v s "" _ (matchField_canonical F (textFields_subset F hF) v hv hnl)
      hmem honly

theorem Parse_text_value_exact_witness :
    ∃ r, mapGet [(" foo", { Package := " foo", Version := "1.0 " })]
        (stanzaKey "Package" ["Package:  foo", "Version: 1.0 "]) = some r ∧
      textAttr "Package" r = " foo" :=
  Parse_text_value_exact [] ["Package:  foo", "Version: 1.0 "] "Package" true "Package" " foo"
    (by decide) (by decide) (by decide) (by decide) (Or.inl rfl) (by decide) (by decide)
    (by decide) _ (by decide)

/-- C4: for every natural number n below 2^63 and every string d of decimal digits denoting
n, a stanza terminated by a blank line whose only Installed-Size line is `Installed-Size: d`
commits a record with InstalledSize = n, and one whose only Size line is `Size: d` commits a
record with Size = n; and each of the two lines changes nothing of the record but its own
attribute (with `int` 64 bits wide). -/
theorem Parse_numeric_value (pre s : List String) (fieldKey : String) (failOnDup : Bool)
    (d : String) (n : Nat) (hkey : fieldKey ∈ Fields) (hd : d.data ≠ [])
    (hdig : ∀ c ∈ d.data, c.isDigit = true) (hval : decimalValue d.data = n) (hn : n < 2 ^ 63)
    (hpre : FreshAfter pre) (hs : ∀ l ∈ s, l ≠ "") (m : PackageMap)
    (h : Parse (pre ++ s ++ [""]) fieldKey failOnDup = { packages := some m, err := none }) :
    (("Installed-Size: " ++ d ∈ s ∧
        ∀ l ∈ s, (matchField "Installed-Size" l).isSome = true → l = "Installed-Size: " ++ d) →
      ∃ r, mapGet m (stanzaKey fieldKey s) = some r ∧ r.InstalledSize = n) ∧
    (("Size: " ++ d ∈ s ∧
        ∀ l ∈ s, (matchField "Size" l).isSome = true → l = "Size: " ++ d) →
      ∃ r, mapGet m (stanzaKey fieldKey s) = some r ∧ r.Size = n) ∧
    (∀ p key, scanFields fieldKey ("Installed-Size: " ++ d) Fields p key =
      .ok ({ p with InstalledSize := n }, if "Installed-Size" = fieldKey then d else key)) ∧
    (∀ p key, scanFields fieldKey ("Size: " ++ d) Fields p key =
      .ok ({ p with Size := n }, if "Size" = fieldKey then d else key)) := by
  obtain ⟨m0, _, hm, _, _⟩ := Parse_commit pre s fieldKey hkey failOnDup hpre hs m h
  obtain ⟨hd1, hd2⟩ := digits_value d hd hdig
  subst hval
  have hA := Atoi_digits d hd hdig hn
  have e1 : "Installed-Size: " ++ d = "Installed-Size" ++ ": " ++ d := by
    rw [String.append_assoc]
    rfl
  have e2 : "Size: " ++ d = "Size" ++ ": " ++ d := by
    rw [String.append_assoc]
    rfl
  have m1 : matchField "Installed-Size" ("Installed-Size: " ++ d) = some d := by
    rw [e1]
    exact matchField_canonical _ (by decide) d hd1 hd2
  have m2 : matchField "Size" ("Size: " ++ d) = some d := by
    rw [e2]
    exact matchField_canonical _ (by decide) d hd1 hd2
  have hget : mapGet m (stanzaKey fieldKey s) = some (stanzaRecord s) := by
    rw [hm, mapGet_mapSet, if_pos rfl]
  refine ⟨?_, ?_, ?_, ?_⟩
  · rintro ⟨hmem, honly⟩
    refine ⟨stanzaRecord s, hget, ?_⟩
    have := lastInt_only "Installed-Size" d s 0 _ m1 hmem honly
    rw [atoiValue_digits d hd hdig hn] at this
    exact this
  · rintro ⟨hmem, honly⟩
    refine ⟨stanzaRecord s, hget, ?_⟩
    have := lastInt_only "Size" d s 0 _ m2 hmem honly
    rw [atoiValue_digits d hd hdig hn] at this
    exact this
  · intro p key
    rw [scanFields_single fieldKey _ Fields p key (fun _ hH => hH) Fields_isFieldOrder.1
      "Installed-Size" d (by decide) m1]
    have : setField "Installed-Size" d p =
        (match Atoi d with
         | .error e => .error e
         | .ok valInt => .ok (p.setInstalledSize valInt)) := rfl
    rw [this, hA]
    rfl
  · intro p key
    rw [scanFields_single fieldKey _ Fields p key (fun _ hH => hH) Fields_isFieldOrder.1
      "Size" d (by decide) m2]
    have : setField "Size" d p =
        (match Atoi d with
         | .error e => .error e
         | .ok valInt => .ok (p.setSize valInt)) := rfl
    rw [this, hA]
    rfl

theorem Parse_numeric_value_witness :
    decimalValue "1024".data = 1024 ∧
    ((("Installed-Size: " ++ "1024" ∈ ["Package: a", "Installed-Size: 1024", "Size: 1024"] ∧
        ∀ l ∈ ["Package: a", "Installed-Size: 1024", "Size: 1024"],
          (matchField "Installed-Size" l).isSome = true → l = "Installed-Size: " ++ "1024") →
      ∃ r, mapGet [("a", { Package := "a", InstalledSize := 1024, Size := 1024 })]
          (stanzaKey "Package" ["Package: a", "Installed-Size: 1024", "Size: 1024"]) = some r ∧
        r.InstalledSize = (1024 : Nat)) ∧
    ((("Size: " ++ "1024" ∈ ["Package: a", "Installed-Size: 1024", "Size: 1024"] ∧
        ∀ l ∈ ["Package: a", "Installed-Size: 1024", "Size: 1024"],
          (matchField "Size" l).isSome = true → l = "Size: " ++ "1024") →
      ∃ r, mapGet [("a", { Package := "a", InstalledSize := 1024, Size := 1024 })]
          (stanzaKey "Package" ["Package: a", "Installed-Size: 1024", "Size: 1024"]) = some r ∧
        r.Size = (1024 : Nat))) ∧
    (∀ p key, scanFields "Package" ("Installed-Size: " ++ "1024") Fields p key =
      .ok ({ p with InstalledSize := (1024 : Nat) },
        if "Installed-Size" = "Package" then "1024" else key)) ∧
    (∀ p key, scanFields "Package" ("Size: " ++ "1024") Fields p key =
      .ok ({ p with Size := (1024 : Nat) }, if "Size" = "Package" then "1024" else key))) :=
  ⟨by decide, Parse_numeric_value [] ["Package: a", "Installed-Size: 1024", "Size: 1024"] "Package"
    false "1024" 1024 (by decide) (by decide) (by decide) (by decide) (by decide) (Or.inl rfl)
    (by decide) _ (by decide)⟩
/-- C5: if some line of the input is `Installed-Size: v` or `Size: v` (field name in any
letter case) with v a non-empty text that does not parse as a base-10 integer (`strconv.Atoi`
rejects it, for its syntax or for its range), then `Parse` returns a non-nil error, wherever
in the input that line occurs, for every key field and either value of `failOnDup`. -/
theorem Parse_malformed_number_fails (lines : List String) (fieldKey : String)
    (failOnDup : Bool) (G f v : String) (e : Error) (hG : G ∈ numericFields)
    (hf : isCaseVariant f.data G.data = true) (hv : v ≠ "")
    (hnl : ∀ c ∈ v.data, c ≠ Char.ofNat 10) (hbad : Atoi v = .error e)
    (hmem : f ++ ": " ++ v ∈ lines) : (Parse lines fieldKey failOnDup).err ≠ none := by
  unfold Parse ParseWith
  by_cases hc : stringsContains (stringsJoin Fields "|") fieldKey = true
  · simp only [hc, Bool.not_true, Bool.false_eq_true, if_false, scanLoop_eq_resultOf]
    have hm := matchField_variant G (numericFields_subset G hG) f v hf hv hnl
    have hno : lineNumericOK (f ++ ": " ++ v) = false := by
      cases hx : lineNumericOK (f ++ ": " ++ v) with
      | false => rfl
      | true => exact absurd ⟨G, hG, v, hm, hbad⟩ ((lineNumericOK_iff _).mp hx e)
    obtain ⟨m1, e1, h1⟩ := runLines_bad_line Fields Fields_isFieldOrder fieldKey failOnDup
      lines initState _ hmem hno
    rw [h1]
    simp [resultOf]
  · simp [hc]

theorem Parse_malformed_number_fails_witness :
    (Parse ["Package: a", "", "Package: b", "installed-SIZE: abc", "", "Package: c", ""]
      "Package" false).err ≠ none ∧
    (Parse ["Package: a", "Size: 9223372036854775808", ""] "Package" true).err ≠ none :=
  ⟨Parse_malformed_number_fails _ "Package" false "Installed-Size" "installed-SIZE" "abc"
      (.numError "Atoi" "abc" .ErrSyntax) (by decide) (by decide) (by decide) (by decide) rfl
      (by decide),
   Parse_malformed_number_fails _ "Package" true "Size" "Size" "9223372036854775808"
      (.numError "Atoi" "9223372036854775808" .ErrRange) (by decide) (by decide) (by decide)
      (by decide) rfl (by decide)⟩

/-- C6 as stated fails: a well-formed stanza is committed, then a line with a malformed
Size ends the call; the map returned along with the error still holds the committed entry. -/
theorem Parse_malformed_number_partial_map :
    Parse ["Package: a", "", "Package: b", "Size: abc", ""] "Package" false =
      { packages := some [("a", { Package := "a" })],
        err := some (.numError "Atoi" "abc" .ErrSyntax) } := by
  decide

/-- C6, amended: when `Parse` fails because a line assigns a numeric field (Installed-Size or
Size) a value that `Atoi` rejects, it returns the error of `Atoi` together with the non-nil
map of the records committed before that line, that is, the map that `Parse` returns for the
input cut off before the offending line. The lines behind it are not read. -/
theorem Parse_malformed_number_keeps_commits (pre post : List String) (l : String)
    (fieldKey : String) (failOnDup : Bool) (m : PackageMap)
    (hpre : Parse pre fieldKey failOnDup = { packages := some m, err := none })
    (G v : String) (e : Error) (hG : G ∈ numericFields) (hm : matchField G l = some v)
    (hA : Atoi v = .error e) :
    Parse (pre ++ l :: post) fieldKey failOnDup = { packages := some m, err := some e } := by
  have hc : stringsContains (stringsJoin Fields "|") fieldKey = true := by
    cases hx : stringsContains (stringsJoin Fields "|") fieldKey with
    | true => rfl
    | false => simp [Parse, ParseWith, hx] at hpre
  rw [Parse_eq_resultOf _ fieldKey failOnDup hc, resultOf_ok_iff] at hpre
  obtain ⟨st, hst, hmst⟩ := hpre
  have hl : l ≠ "" := by
    intro h0
    subst h0
    rw [matchField_empty] at hm
    cases hm
  have hs : scanFields fieldKey l Fields st.p st.key = .error e :=
    (scanFields_error_iff Fields Fields_isFieldOrder fieldKey l st.p st.key e).mpr
      ⟨G, hG, v, hm, hA⟩
  rw [Parse_eq_resultOf _ fieldKey failOnDup hc, runLines_append, hst]
  simp only [runLines, lineStep_nonblank Fields fieldKey failOnDup st l hl, hs]
  rw [← hmst]
  rfl

theorem Parse_malformed_number_keeps_commits_witness :
    Parse (["Package: a", ""] ++ "Size: 1x" :: ["", "Package: c", ""]) "Package" true =
      { packages := some [("a", { Package := "a" })],
        err := some (.numError "Atoi" "1x" .ErrSyntax) } :=
  Parse_malformed_number_keeps_commits ["Package: a", ""] ["", "Package: c", ""] "Size: 1x"
    "Package" true [("a", { Package := "a" })] (by decide) "Size" "1x" _ (by decide)
    (by decide) rfl

/-- C7 as stated fails: the stanzas with key `b` collide, but the stanzas with key `a`
collide before them, so the error names `a` and its message does not contain `b`. -/
theorem Parse_duplicate_names_first_collision :
    Parse ["Package: a", "", "Package: a", "", "Package: b", "", "Package: b", ""]
        "Package" true =
      { packages := some [("a", { Package := "a" })],
        err := some (.errorsNew "duplicate package for field key Package: a") } ∧
    stringsContains "duplicate package for field key Package: a" "b" = false := by
  decide

/-- C7, amended: with failOnDup = true and a supported key field, for every input in which a
blank-line-terminated stanza `s` has the key of an earlier stanza, the stanzas before `s`
have pairwise distinct keys (so `s` is the first to collide) and no numeric field up to the
blank line of `s` is malformed, `Parse` returns the duplicate-key error, whose message
contains the name of the key field and the colliding key; the error is raised at the blank
line of `s`: whatever lines follow, the result is the same, with the map as committed by the
stanzas before `s`. -/
theorem Parse_duplicate_first_collision (stanzas : List (List String)) (s : List String)
    (fieldKey : String) (hkey : fieldKey ∈ Fields)
    (hlines : ∀ t ∈ stanzas, ∀ l ∈ t, l ≠ "") (hs : ∀ l ∈ s, l ≠ "")
    (hnum : ∀ t ∈ stanzas, ∀ l ∈ t, lineNumericOK l = true)
    (hnums : ∀ l ∈ s, lineNumericOK l = true)
    (hdistinct : (stanzas.map (stanzaKey fieldKey)).Nodup)
    (hcoll : stanzaKey fieldKey s ∈ stanzas.map (stanzaKey fieldKey)) :
    ∃ m, Parse (joinStanzas stanzas) fieldKey true = { packages := some m, err := none } ∧
      (∀ post, Parse (joinStanzas stanzas ++ s ++ "" :: post) fieldKey true =
        { packages := some m,
          err := some (.errorsNew (duplicateMsg fieldKey (stanzaKey fieldKey s))) }) ∧
      stringsContains (duplicateMsg fieldKey (stanzaKey fieldKey s)) fieldKey = true ∧
      stringsContains (duplicateMsg fieldKey (stanzaKey fieldKey s))
        (stanzaKey fieldKey s) = true := by
  obtain ⟨m, hm, _⟩ := commitStanzas_distinct fieldKey true stanzas [] hdistinct
    (fun _ _ => rfl)
  have hacc := Fields_accepted fieldKey hkey
  have hrun := runLines_joinStanzas Fields Fields_isFieldOrder fieldKey hkey true stanzas
    hlines hnum []
  rw [hm] at hrun
  simp only at hrun
  refine ⟨m, ?_, ?_, duplicateMsg_contains fieldKey _⟩
  · rw [Parse_eq_resultOf _ fieldKey true hacc]
    show resultOf (runLines Fields fieldKey true { packages := [], p := {}, key := "" } _) = _
    rw [hrun]
    rfl
  · intro post
    have e1 : joinStanzas stanzas ++ s ++ "" :: post =
        joinStanzas stanzas ++ ((s ++ [""]) ++ post) := by simp
    rw [Parse_eq_resultOf _ fieldKey true hacc, e1, runLines_append]
    show resultOf (match runLines Fields fieldKey true
      { packages := [], p := {}, key := "" } (joinStanzas stanzas) with
      | .error e => .error e
      | .ok st1 => runLines Fields fieldKey true st1 (s ++ [""] ++ post)) = _
    rw [hrun]
    simp only
    rw [runLines_append, runLines_stanza_blank Fields Fields_isFieldOrder fieldKey hkey true m s
      hs hnums]
    have hhas := commitStanzas_mapHas fieldKey true stanzas [] m hm _ hcoll
    simp [hhas, resultOf]

theorem Parse_duplicate_first_collision_witness :
    ∃ m, Parse (joinStanzas [["Package: foo", "Version: 1"], ["Package: bar"]]) "Package" true =
        { packages := some m, err := none } ∧
      (∀ post, Parse (joinStanzas [["Package: foo", "Version: 1"], ["Package: bar"]] ++
          ["Package: foo", "Version: 2"] ++ "" :: post) "Package" true =
        { packages := some m,
          err := some (.errorsNew (duplicateMsg "Package"
            (stanzaKey "Package" ["Package: foo", "Version: 2"]))) }) ∧
      stringsContains (duplicateMsg "Package"
        (stanzaKey "Package" ["Package: foo", "Version: 2"])) "Package" = true ∧
      stringsContains (duplicateMsg "Package"
        (stanzaKey "Package" ["Package: foo", "Version: 2"]))
        (stanzaKey "Package" ["Package: foo", "Version: 2"]) = true :=
  Parse_duplicate_first_collision [["Package: foo", "Version: 1"], ["Package: bar"]]
    ["Package: foo", "Version: 2"] "Package" (by decide) (by decide) (by decide) (by decide)
    (by decide) (by decide) (by decide)

/-- C8: with failOnDup = false and a supported key field, `Parse` never returns a
duplicate-key error (an error it returns is never one made by `errors.New`), and when it
returns a map, the map has one entry per key and under every key k it stores the record of
the LAST blank-line-terminated stanza of the input whose key is k (no entry when there is no
such stanza). In particular two stanzas with the same key give exactly one entry, equal to the
second stanza's record. -/
theorem Parse_last_write_wins (lines : List String) (fieldKey : String)
    (hkey : fieldKey ∈ Fields) :
    (∀ msg, (Parse lines fieldKey false).err ≠ some (.errorsNew msg)) ∧
    (∀ m, Parse lines fieldKey false = { packages := some m, err := none } →
      (m.map Prod.fst).Nodup ∧
      ∀ k, mapGet m k =
        (((stanzasOf lines).filter (fun s => stanzaKey fieldKey s == k)).getLast?).map
          stanzaRecord) ∧
    (∀ s1 s2 : List String, (∀ l ∈ s1 ++ s2, l ≠ "" ∧ lineNumericOK l = true) →
      stanzaKey fieldKey s1 = stanzaKey fieldKey s2 →
      Parse (joinStanzas [s1, s2]) fieldKey false =
        { packages := some [(stanzaKey fieldKey s2, stanzaRecord s2)], err := none }) := by
  have hacc := Fields_accepted fieldKey hkey
  refine ⟨?_, ?_, ?_⟩
  · intro msg h
    rw [Parse_eq_resultOf _ fieldKey false hacc] at h
    cases hr : runLines Fields fieldKey false initState lines with
    | ok st => simp [hr, resultOf] at h
    | error e =>
      obtain ⟨m1, e1⟩ := e
      obtain ⟨v, k, hk⟩ := runLines_lenient_error Fields Fields_isFieldOrder fieldKey
        initState lines m1 e1 hr
      simp [hr, resultOf, hk] at h
  · intro m h
    refine ⟨?_, Parse_entry_stanza lines fieldKey hkey false m h⟩
    have hok := Parse_ok_numericOK lines fieldKey hkey false (by rw [h])
    rw [Parse_eq_commitResult lines fieldKey hkey false hok] at h
    cases hc : commitStanzas fieldKey false [] (stanzasOf lines) with
    | error e =>
      obtain ⟨m1, e1⟩ := e
      simp [hc, commitResult] at h
    | ok m1 =>
      simp only [hc, commitResult, ParseResult.mk.injEq, Option.some.injEq, and_true] at h
      subst h
      exact commitStanzas_nodup fieldKey false _ [] m1 hc (by simp)
  · intro s1 s2 hl hk
    have hl1 : ∀ l ∈ s1, l ≠ "" ∧ lineNumericOK l = true :=
      fun l h => hl l (List.mem_append_left _ h)
    have hl2 : ∀ l ∈ s2, l ≠ "" ∧ lineNumericOK l = true :=
      fun l h => hl l (List.mem_append_right _ h)
    have hnb : ∀ s ∈ [s1, s2], ∀ l ∈ s, l ≠ "" := by
      intro s hs l hls
      simp only [List.mem_cons, List.mem_singleton, List.not_mem_nil, or_false] at hs
      rcases hs with rfl | rfl
      · exact (hl1 l hls).1
      · exact (hl2 l hls).1
    have hok : ∀ l ∈ joinStanzas [s1, s2], lineNumericOK l = true := by
      intro l hmem
      simp only [joinStanzas, List.mem_append, List.mem_cons, List.not_mem_nil, or_false] at hmem
      rcases hmem with h | h | h | h
      · exact (hl1 l h).2
      · subst h
        simp [lineNumericOK, matchField_empty]
      · exact (hl2 l h).2
      · subst h
        simp [lineNumericOK, matchField_empty]
    rw [Parse_eq_commitResult _ fieldKey hkey false hok, stanzasOf_joinStanzas _ hnb]
    simp [commitStanzas, commitResult, mapSet, hk]

theorem Parse_last_write_wins_witness :
    mapGet [("foo", { Package := "foo", Version := "2" })] "foo" =
      (((stanzasOf ["Package: foo", "Version: 1", "", "Package: foo", "Version: 2", ""]).filter
        (fun s => stanzaKey "Package" s == "foo")).getLast?).map stanzaRecord :=
  ((Parse_last_write_wins ["Package: foo", "Version: 1", "", "Package: foo", "Version: 2", ""]
    "Package" (by decide)).2.1 [("foo", { Package := "foo", Version := "2" })]
    (by decide)).2 "foo"

/-- C9: field names are recognized whatever their letter case. If the lines of two inputs
agree one by one except for the letter case of the supported field name at the start of
lines, `Parse` returns the same map and the same error for both, with every key field and
either value of `failOnDup`: in particular a record is stored under the same key. -/
theorem Parse_field_name_case (lines lines1 : List String) (fieldKey : String)
    (failOnDup : Bool) (h : List.Forall₂ CaseChanged lines lines1) :
    Parse lines fieldKey failOnDup = Parse lines1 fieldKey failOnDup := by
  unfold Parse ParseWith
  by_cases hc : stringsContains (stringsJoin Fields "|") fieldKey = true
  · simp only [hc, Bool.not_true, Bool.false_eq_true, if_false]
    generalize initState = st
    induction h generalizing st with
    | nil => rfl
    | cons hl _ ih =>
      simp only [scanLoop, lineStep_caseChanged fieldKey failOnDup st _ _ hl]
      split
      · rfl
      · exact ih _
  · simp [hc]

theorem Parse_field_name_case_witness :
    Parse ["package: foo", "SIZE: 12", "", "Homepage: x", "installed-size: 3", ""]
        "Package" true =
      Parse ["Package: foo", "Size: 12", "", "Homepage: x", "Installed-Size: 3", ""]
        "Package" true ∧
    Parse ["Package: foo", "Size: 12", "", "Homepage: x", "Installed-Size: 3", ""]
        "Package" true =
      { packages := some [("", { InstalledSize := 3 }), ("foo", { Package := "foo", Size := 12 })],
        err := none } :=
  ⟨Parse_field_name_case _ _ "Package" true
    (.cons (.inr ⟨"Package", by decide, "package".data, "Package".data, ": foo".data,
        by decide, by decide, rfl, rfl⟩)
      (.cons (.inr ⟨"Size", by decide, "SIZE".data, "Size".data, ": 12".data,
          by decide, by decide, rfl, rfl⟩)
        (.cons (.inl rfl)
          (.cons (.inl rfl)
            (.cons (.inr ⟨"Installed-Size", by decide, "installed-size".data,
                "Installed-Size".data, ": 3".data, by decide, by decide, rfl, rfl⟩)
              (.cons (.inl rfl) .nil)))))),
   by decide⟩

/-- C10: every record of a map returned by `Parse` is the record of its own stanza only (a
blank-line-terminated stanza of the input with the entry's key), whatever earlier stanzas
contained: each text field without a line in that stanza is the empty string and each
numeric field without a line in it is 0. In particular a stanza that consists of the line
`Package: foo` gives a record with Package = "foo" and the twelve other attributes zero. -/
theorem Parse_absent_fields_zero (lines : List String) (fieldKey : String) (failOnDup : Bool)
    (hkey : fieldKey ∈ Fields) (m : PackageMap)
    (h : Parse lines fieldKey failOnDup = { packages := some m, err := none })
    (k : String) (r : Package) (hr : mapGet m k = some r) :
    ∃ s ∈ stanzasOf lines, stanzaKey fieldKey s = k ∧ r = stanzaRecord s ∧
      (∀ F ∈ textFields, fieldValues F s = [] → textAttr F r = "") ∧
      (∀ F ∈ numericFields, fieldValues F s = [] → intAttr F r = 0) ∧
      (s = ["Package: foo"] → r = { Package := "foo" }) := by
  rw [Parse_entry_stanza lines fieldKey hkey failOnDup m h k] at hr
  cases hlast : (List.filter (fun s => stanzaKey fieldKey s == k) (stanzasOf lines)).getLast? with
  | none => simp [hlast] at hr
  | some s =>
    simp only [hlast, Option.map_some', Option.some.injEq] at hr
    have hmem := List.mem_of_getLast?_eq_some hlast
    rw [List.mem_filter] at hmem
    refine ⟨s, hmem.1, by simpa using hmem.2, hr.symm, ?_, ?_, ?_⟩
    · intro F hF habs
      rw [← hr, stanzaRecord_text F hF, lastValue_absent F s "" habs]
    · intro F hF habs
      rw [← hr, stanzaRecord_int F hF, lastInt_absent F s 0 habs]
    · intro hs
      rw [← hr, hs]
      decide

set_option maxRecDepth 100000 in
theorem Parse_absent_fields_zero_witness :
    ∃ s ∈ stanzasOf ["Package: bar", "Priority: optional", "Section: net",
        "Installed-Size: 10", "Maintainer: M", "Architecture: all", "Version: 1",
        "Depends: libc6", "Filename: pool/bar.deb", "Size: 20", "MD5sum: aa", "SHA1: bb",
        "SHA256: cc", "", "Package: foo", ""],
      stanzaKey "Package" s = "foo" ∧ ({ Package := "foo" } : Package) = stanzaRecord s ∧
      (∀ F ∈ textFields, fieldValues F s = [] → textAttr F { Package := "foo" } = "") ∧
      (∀ F ∈ numericFields, fieldValues F s = [] → intAttr F { Package := "foo" } = 0) ∧
      (s = ["Package: foo"] → ({ Package := "foo" } : Package) = { Package := "foo" }) :=
  Parse_absent_fields_zero ["Package: bar", "Priority: optional", "Section: net",
      "Installed-Size: 10", "Maintainer: M", "Architecture: all", "Version: 1",
      "Depends: libc6", "Filename: pool/bar.deb", "Size: 20", "MD5sum: aa", "SHA1: bb",
      "SHA256: cc", "", "Package: foo", ""] "Package" true (by decide)
    [("foo", { Package := "foo" }),
     ("bar", { Package := "bar", Priority := "optional", Section := "net", InstalledSize := 10,
               Maintainer := "M", Architecture := "all", Version := "1", Depends := "libc6",
               Filename := "pool/bar.deb", Size := 20, MD5sum := "aa", SHA1 := "bb",
               SHA256 := "cc" })]
    (by decide) "foo" { Package := "foo" } (by decide)

/-- C11, evaluated at the failing input: the reader delivers the lines `Package: a` and a
blank line, then reading fails with an error that is not end of stream. `Parse` reports
success: a nil error, with the map built from the lines delivered before the failure. -/
theorem ParseReader_drops_read_error :
    ParseReader { lines := ["Package: a", ""], readErr := some (.errorsNew "unexpected EOF") }
        "Package" false =
      { packages := some [("a", { Package := "a" })], err := none } := by
  decide

/-- C12: a record is committed only at a blank line. When `Parse` succeeds on an input, it
returns the same map for the input cut off behind its last blank line, so the lines of a
final stanza that no blank line closes are dropped; the map is empty when the input has no
blank line at all. -/
theorem Parse_drops_unterminated_stanza (lines : List String) (fieldKey : String)
    (failOnDup : Bool) (m : PackageMap)
    (h : Parse lines fieldKey failOnDup = { packages := some m, err := none }) :
    Parse (uptoLastBlank lines) fieldKey failOnDup = { packages := some m, err := none } ∧
    (∃ tail, lines = uptoLastBlank lines ++ tail ∧ ∀ l ∈ tail, l ≠ "") ∧
    ((∀ l ∈ lines, l ≠ "") → m = []) := by
  have hacc := accepted_of_packages lines fieldKey failOnDup m none h
  obtain ⟨tail, hsplit, htail, _⟩ := uptoLastBlank_split lines
  have key : Parse (uptoLastBlank lines) fieldKey failOnDup =
      { packages := some m, err := none } := by
    rw [Parse_eq_resultOf _ fieldKey failOnDup hacc, resultOf_ok_iff] at h
    obtain ⟨st, hst, hm⟩ := h
    rw [hsplit, runLines_append] at hst
    cases h1 : runLines Fields fieldKey failOnDup initState (uptoLastBlank lines) with
    | error e => simp [h1] at hst
    | ok st1 =>
      simp only [h1] at hst
      have := runLines_nonblank_packages Fields fieldKey failOnDup tail htail st1 st hst
      rw [Parse_eq_resultOf _ fieldKey failOnDup hacc, h1, resultOf_ok_iff]
      exact ⟨st1, rfl, by rw [← this, hm]⟩
  refine ⟨key, ⟨tail, hsplit, htail⟩, ?_⟩
  intro hall
  have hnil : uptoLastBlank lines = [] := by
    unfold uptoLastBlank
    rw [List.reverse_eq_nil_iff, List.dropWhile_eq_nil_iff]
    intro x hx
    simpa using hall x (List.mem_reverse.mp hx)
  rw [hnil, Parse_eq_resultOf _ fieldKey failOnDup hacc] at key
  simp only [runLines, resultOf, initState, ParseResult.mk.injEq, Option.some.injEq,
    and_true] at key
  exact key.symm

theorem Parse_drops_unterminated_stanza_witness :
    Parse (uptoLastBlank ["Package: a", "", "Package: b", "Version: 2"]) "Package" true =
      { packages := some [("a", { Package := "a" })], err := none } ∧
    (∃ tail, ["Package: a", "", "Package: b", "Version: 2"] =
        uptoLastBlank ["Package: a", "", "Package: b", "Version: 2"] ++ tail ∧
      ∀ l ∈ tail, l ≠ "") ∧
    ((∀ l ∈ ["Package: a", "", "Package: b", "Version: 2"], l ≠ "") →
      [("a", ({ Package := "a" } : Package))] = []) :=
  Parse_drops_unterminated_stanza ["Package: a", "", "Package: b", "Version: 2"] "Package" true
    [("a", { Package := "a" })] (by decide)

/-- C13: for every supported key field, a blank-line-terminated stanza without a line for the
key field is still committed, under the empty key; with failOnDup = false several such
stanzas overwrite each other under the empty key and the last one remains; with
failOnDup = true the second such stanza makes `Parse` fail with the duplicate-key error. -/
theorem Parse_keyless_stanza (fieldKey : String) (hkey : fieldKey ∈ Fields) :
    (∀ pre s failOnDup m0, FreshAfter pre →
      (∀ l ∈ s, l ≠ "" ∧ lineNumericOK l = true) → fieldValues fieldKey s = [] →
      Parse pre fieldKey failOnDup = { packages := some m0, err := none } →
      (failOnDup = true → mapHas m0 "" = false) →
      Parse (pre ++ s ++ [""]) fieldKey failOnDup =
        { packages := some (mapSet m0 "" (stanzaRecord s)), err := none }) ∧
    (∀ stanzas last,
      (∀ s ∈ stanzas, fieldValues fieldKey s = [] ∧
        ∀ l ∈ s, l ≠ "" ∧ lineNumericOK l = true) →
      stanzas.getLast? = some last →
      Parse (joinStanzas stanzas) fieldKey false =
        { packages := some [("", stanzaRecord last)], err := none }) ∧
    (∀ s1 s2 post,
      (∀ l ∈ s1 ++ s2, l ≠ "" ∧ lineNumericOK l = true) →
      fieldValues fieldKey s1 = [] → fieldValues fieldKey s2 = [] →
      Parse (s1 ++ "" :: s2 ++ "" :: post) fieldKey true =
        { packages := some [("", stanzaRecord s1)],
          err := some (.errorsNew (duplicateMsg fieldKey "")) }) := by
  refine ⟨?_, ?_, ?_⟩
  · intro pre s failOnDup m0 hpre hs habs h0 hdup
    have hk := stanzaKey_absent fieldKey s habs
    have := Parse_commit_forward pre s fieldKey hkey failOnDup hpre (fun l hl => (hs l hl).1)
      (fun l hl => (hs l hl).2) m0 h0 (by rw [hk]; exact hdup)
    rw [hk] at this
    exact this
  · intro stanzas last hst hlast
    rw [Parse_eq_commitResult _ fieldKey hkey false
        (joinStanzas_numericOK stanzas (fun s hs l hl => ((hst s hs).2 l hl).2)),
      stanzasOf_joinStanzas _ (fun s hs l hl => ((hst s hs).2 l hl).1),
      commitStanzas_keyless fieldKey stanzas
        (fun s hs => stanzaKey_absent fieldKey s (hst s hs).1) [] (Or.inl rfl), hlast]
    rfl
  · intro s1 s2 post hl h1 h2
    have k1 := stanzaKey_absent fieldKey s1 h1
    have k2 := stanzaKey_absent fieldKey s2 h2
    obtain ⟨m, hm, _, _, hpost⟩ := Parse_strict_collision [s1] s2 fieldKey hkey
      (by
        intro t ht l hlt
        simp only [List.mem_singleton] at ht
        subst ht
        exact (hl l (List.mem_append_left _ hlt)).1)
      (fun l hlt => (hl l (List.mem_append_right _ hlt)).1)
      (by
        intro t ht l hlt
        simp only [List.mem_singleton] at ht
        subst ht
        exact (hl l (List.mem_append_left _ hlt)).2)
      (fun l hlt => (hl l (List.mem_append_right _ hlt)).2)
      (by simp)
      (by simp [k1, k2])
    have hm1 : m = [("", stanzaRecord s1)] := by
      simp only [commitStanzas, List.not_mem_nil, mapHas, List.any_nil, Bool.and_false,
        Bool.false_eq_true, if_false, Except.ok.injEq, k1] at hm
      rw [← hm]
      simp [mapSet]
    have := hpost post
    rw [hm1, k2] at this
    simpa [joinStanzas] using this

theorem Parse_keyless_stanza_witness :
    Parse (["Version: 1"] ++ "" :: ["Version: 2"] ++ "" :: ["Package: a", ""]) "Package" true =
      { packages := some [("", stanzaRecord ["Version: 1"])],
        err := some (.errorsNew (duplicateMsg "Package" "")) } :=
  (Parse_keyless_stanza "Package" (by decide)).2.2 ["Version: 1"] ["Version: 2"]
    ["Package: a", ""] (by decide) (by decide) (by decide)

/-- C14: lines that are not a recognized field assignment are ignored without error. A
non-empty line that does not start with one of the 13 supported field names (in any letter
case, as the flag `(?i)` reads it) immediately followed by `": "` can be inserted into or
deleted from any input, at any place, and `Parse` returns the same map and error; the lines
`Homepage: x` and ` Size: abc` are such lines. -/
theorem Parse_ignores_unrecognized_line (l : String) (hl : l ≠ "")
    (hstart : ∀ F ∈ Fields, startsWithField F l = false) :
    (∀ pre post fieldKey failOnDup,
      Parse (pre ++ l :: post) fieldKey failOnDup = Parse (pre ++ post) fieldKey failOnDup) ∧
    (∀ F ∈ Fields, startsWithField F "Homepage: x" = false) ∧
    (∀ F ∈ Fields, startsWithField F " Size: abc" = false) := by
  refine ⟨?_, by decide, by decide⟩
  intro pre post fieldKey failOnDup
  exact Parse_unmatched_line pre post l fieldKey failOnDup hl
    (fun F hF => matchField_none_of_not_startsWith F l (hstart F hF))

theorem Parse_ignores_unrecognized_line_witness :
    (∀ pre post fieldKey failOnDup,
      Parse (pre ++ " Size: abc" :: post) fieldKey failOnDup =
        Parse (pre ++ post) fieldKey failOnDup) ∧
    (∀ F ∈ Fields, startsWithField F "Homepage: x" = false) ∧
    (∀ F ∈ Fields, startsWithField F " Size: abc" = false) :=
  Parse_ignores_unrecognized_line " Size: abc" (by decide) (by decide)

/-- C15: for each of the 13 supported field names used as key field and either value of
failOnDup, `Parse` on the empty input stream returns an empty, non-nil map and no error. -/
theorem Parse_empty_input (fieldKey : String) (failOnDup : Bool) (hkey : fieldKey ∈ Fields) :
    Parse [] fieldKey failOnDup = { packages := some [], err := none } := by
  rw [Parse_eq_resultOf _ fieldKey failOnDup (Fields_accepted fieldKey hkey)]
  rfl

theorem Parse_empty_input_witness :
    Parse [] "Installed-Size" true = { packages := some [], err := none } :=
  Parse_empty_input "Installed-Size" true (by decide)

/-- C16: matching is anchored at the start of the line (a matched line is the field name,
then `": "`, then the captured value) and every line matches at most one of the 13 patterns
(`Installed-Size: 5` matches Installed-Size and not Size). Consequently the result of `Parse`
does not depend on the order in which the patterns are tried, even when the order changes
from line to line: `Parse` is a function of the lines, the key field and failOnDup. -/
theorem Parse_order_independent :
    (∀ F l v, matchField F l = some v →
      ∃ f : List Char, l.data = f ++ ':' :: ' ' :: v.data ∧ f.length = F.data.length ∧
        v.data ≠ []) ∧
    (∀ F ∈ Fields, ∀ G ∈ Fields, ∀ l,
      (matchField F l).isSome = true → (matchField G l).isSome = true → F = G) ∧
    (matchField "Installed-Size" "Installed-Size: 5" = some "5" ∧
      matchField "Size" "Installed-Size: 5" = none) ∧
    (∀ orderAt : Nat → List String, (∀ i, (orderAt i).Perm Fields) →
      ∀ lines fieldKey failOnDup,
        ParseAt orderAt lines fieldKey failOnDup = Parse lines fieldKey failOnDup) := by
  refine ⟨matchField_anchored, ?_, by decide, ?_⟩
  · intro F hF G hG l h1 h2
    exact matchField_unique F G hF hG l h1 h2
  · intro orderAt ho lines fieldKey failOnDup
    unfold ParseAt Parse ParseWith
    rw [scanLoopAt_eq orderAt (fun i => isFieldOrder_of_perm _ (ho i))]

theorem Parse_order_independent_witness :
    ParseAt (fun i => if i % 2 = 0 then Fields.reverse else Fields)
        ["Size: 3", "Package: a", "Installed-Size: 5", ""] "Size" true =
      Parse ["Size: 3", "Package: a", "Installed-Size: 5", ""] "Size" true :=
  Parse_order_independent.2.2.2 (fun i => if i % 2 = 0 then Fields.reverse else Fields)
    (fun i => by
      by_cases h : i % 2 = 0
      · simp only [h, if_true]
        exact List.reverse_perm _
      · simp only [h, if_false]
        exact List.Perm.refl _)
    _ _ _

/-- C17: on a strict-mode duplicate-key failure no partial commit occurs. When a stanza `s`
repeats the key of an earlier stanza (the stanzas before it having pairwise distinct keys and
well-formed numbers), `Parse` returns the duplicate-key error together with the map that it
returns for the input up to the stanza before `s`: that map holds exactly the entries
committed by the stanzas before `s`, one per stanza, and the entry under the colliding key is
still the record of the earlier stanza with that key. -/
theorem Parse_duplicate_no_partial_commit (stanzas : List (List String)) (s : List String)
    (fieldKey : String) (hkey : fieldKey ∈ Fields)
    (hlines : ∀ t ∈ stanzas, ∀ l ∈ t, l ≠ "") (hs : ∀ l ∈ s, l ≠ "")
    (hnum : ∀ t ∈ stanzas, ∀ l ∈ t, lineNumericOK l = true)
    (hnums : ∀ l ∈ s, lineNumericOK l = true)
    (hdistinct : (stanzas.map (stanzaKey fieldKey)).Nodup)
    (hcoll : stanzaKey fieldKey s ∈ stanzas.map (stanzaKey fieldKey)) :
    ∃ m,
      (∀ post, Parse (joinStanzas stanzas ++ s ++ "" :: post) fieldKey true =
        { packages := some m,
          err := some (.errorsNew (duplicateMsg fieldKey (stanzaKey fieldKey s))) }) ∧
      Parse (joinStanzas stanzas) fieldKey true = { packages := some m, err := none } ∧
      m.length = stanzas.length ∧
      (∀ k, mapGet m k =
        ((stanzas.filter (fun t => stanzaKey fieldKey t == k)).getLast?).map stanzaRecord) ∧
      (∃ t ∈ stanzas, stanzaKey fieldKey t = stanzaKey fieldKey s ∧
        mapGet m (stanzaKey fieldKey s) = some (stanzaRecord t)) := by
  obtain ⟨m, hm, hlen, hpre, hpost⟩ := Parse_strict_collision stanzas s fieldKey hkey hlines hs
    hnum hnums hdistinct hcoll
  have hget : ∀ k, mapGet m k =
      ((stanzas.filter (fun t => stanzaKey fieldKey t == k)).getLast?).map stanzaRecord := by
    intro k
    rw [commitStanzas_mapGet fieldKey true stanzas [] m hm k]
    cases (List.filter (fun t => stanzaKey fieldKey t == k) stanzas).getLast? <;> rfl
  refine ⟨m, hpost, hpre, hlen, hget, ?_⟩
  cases hlast : (List.filter (fun t => stanzaKey fieldKey t == stanzaKey fieldKey s)
      stanzas).getLast? with
  | none =>
    exfalso
    rw [List.getLast?_eq_none_iff, List.filter_eq_nil_iff] at hlast
    obtain ⟨t, ht, htk⟩ := List.mem_map.mp hcoll
    exact hlast t ht (by simpa using htk)
  | some t =>
    have hmem := List.mem_of_getLast?_eq_some hlast
    rw [List.mem_filter] at hmem
    exact ⟨t, hmem.1, by simpa using hmem.2, by rw [hget, hlast]; rfl⟩

theorem Parse_duplicate_no_partial_commit_witness :
    ∃ m,
      (∀ post, Parse (joinStanzas [["Package: foo", "Version: 1"], ["Package: bar"]] ++
          ["Package: foo", "Version: 2"] ++ "" :: post) "Package" true =
        { packages := some m,
          err := some (.errorsNew (duplicateMsg "Package"
            (stanzaKey "Package" ["Package: foo", "Version: 2"]))) }) ∧
      Parse (joinStanzas [["Package: foo", "Version: 1"], ["Package: bar"]]) "Package" true =
        { packages := some m, err := none } ∧
      m.length = [["Package: foo", "Version: 1"], ["Package: bar"]].length ∧
      (∀ k, mapGet m k =
        (([["Package: foo", "Version: 1"], ["Package: bar"]].filter
          (fun t => stanzaKey "Package" t == k)).getLast?).map stanzaRecord) ∧
      (∃ t ∈ [["Package: foo", "Version: 1"], ["Package: bar"]],
        stanzaKey "Package" t = stanzaKey "Package" ["Package: foo", "Version: 2"] ∧
        mapGet m (stanzaKey "Package" ["Package: foo", "Version: 2"]) =
          some (stanzaRecord t)) :=
  Parse_duplicate_no_partial_commit [["Package: foo", "Version: 1"], ["Package: bar"]]
    ["Package: foo", "Version: 2"] "Package" (by decide) (by decide) (by decide) (by decide)
    (by decide) (by decide) (by decide)

/-- C18: key and record agree. For every supported key field and every entry (k, r) of a
non-nil map returned by `Parse` (with or without an error): when the key field is a text
field, the attribute of r for that field is k; when it is Installed-Size or Size, either
k = "" and the attribute is 0, or k is the non-empty raw text that `Atoi` parsed to the
attribute's value. -/
theorem Parse_key_matches_record (lines : List String) (fieldKey : String) (failOnDup : Bool)
    (hkey : fieldKey ∈ Fields) (m : PackageMap) (e : Option Error)
    (h : Parse lines fieldKey failOnDup = { packages := some m, err := e })
    (k : String) (r : Package) (hr : mapGet m k = some r) :
    (fieldKey ∈ textFields → textAttr fieldKey r = k) ∧
    (fieldKey ∈ numericFields →
      (k = "" ∧ intAttr fieldKey r = 0) ∨ (k ≠ "" ∧ Atoi k = .ok (intAttr fieldKey r))) := by
  obtain ⟨pre, post, _, hpre⟩ := Parse_packages_of_initial lines fieldKey failOnDup m e h
  have hok := Parse_ok_numericOK pre fieldKey hkey failOnDup (by rw [hpre])
  rw [Parse_entry_stanza pre fieldKey hkey failOnDup m hpre k] at hr
  cases hlast : (List.filter (fun s => stanzaKey fieldKey s == k) (stanzasOf pre)).getLast? with
  | none => simp [hlast] at hr
  | some s =>
    simp only [hlast, Option.map_some', Option.some.injEq] at hr
    have hmem := List.mem_of_getLast?_eq_some hlast
    rw [List.mem_filter] at hmem
    have hk : stanzaKey fieldKey s = k := by simpa using hmem.2
    subst hr
    constructor
    · intro ht
      rw [stanzaRecord_text fieldKey ht, ← hk]
      rfl
    · intro hn
      rw [stanzaRecord_int fieldKey hn, ← hk]
      unfold stanzaKey lastValue lastInt
      cases hv : (fieldValues fieldKey s).getLast? with
      | none => left; exact ⟨rfl, rfl⟩
      | some v =>
        right
        have hvm := List.mem_of_getLast?_eq_some hv
        obtain ⟨l, hl, hlm⟩ := List.mem_filterMap.mp hvm
        have hlok := hok l (mem_stanzasOf pre s hmem.1 l hl)
        exact ⟨matchField_value_ne_empty fieldKey l v hlm,
          Atoi_of_lineNumericOK l hlok fieldKey hn v hlm⟩

theorem Parse_key_matches_record_witness :
    ("Size" ∈ textFields → textAttr "Size" { Package := "a", Size := 7 } = "007") ∧
    ("Size" ∈ numericFields →
      ("007" = "" ∧ intAttr "Size" { Package := "a", Size := 7 } = 0) ∨
      ("007" ≠ "" ∧ Atoi "007" = .ok (intAttr "Size" { Package := "a", Size := 7 }))) :=
  Parse_key_matches_record ["Package: a", "Size: 007", "", "Size: x"] "Size" false (by decide)
    [("007", { Package := "a", Size := 7 })]
    (some (.numError "Atoi" "x" .ErrSyntax)) (by decide) "007" { Package := "a", Size := 7 }
    (by decide)

/-- C19: a line that consists of a supported field name (in any letter case) followed by
`": "` and nothing else is not recognized: `Parse` returns for an input with such a line what
it returns with the line deleted. In particular `Size: ` and `Installed-Size: ` raise no
malformed-number error, and `Package: ` clears neither the Package value nor the pending key
set earlier in the stanza. -/
theorem Parse_ignores_empty_value (F f : String) (hF : F ∈ Fields)
    (hf : isCaseVariant f.data F.data = true) :
    (∀ pre post fieldKey failOnDup,
      Parse (pre ++ (f ++ ": ") :: post) fieldKey failOnDup =
        Parse (pre ++ post) fieldKey failOnDup) ∧
    Parse ["Package: foo", "Package: ", "Size: ", "Installed-Size: ", ""] "Package" true =
      { packages := some [("foo", { Package := "foo" })], err := none } := by
  refine ⟨?_, by decide⟩
  intro pre post fieldKey failOnDup
  have hne : f ++ ": " ≠ "" := by
    intro h
    have := congrArg String.length h
    simp only [String.length_append] at this
    have h2 : ": ".length = 2 := by decide
    have h0 : "".length = 0 := by decide
    omega
  exact Parse_unmatched_line pre post _ fieldKey failOnDup hne
    (fun G hG => matchField_empty_value F hF f hf G hG)

theorem Parse_ignores_empty_value_witness :
    (∀ pre post fieldKey failOnDup,
      Parse (pre ++ ("size" ++ ": ") :: post) fieldKey failOnDup =
        Parse (pre ++ post) fieldKey failOnDup) ∧
    Parse ["Package: foo", "Package: ", "Size: ", "Installed-Size: ", ""] "Package" true =
      { packages := some [("foo", { Package := "foo" })], err := none } :=
  Parse_ignores_empty_value "Size" "size" (by decide) (by decide)

/-- C20: when a supported field occurs on several lines of a stanza, the last occurrence
wins. If `l` is the last line of a blank-line-terminated stanza that assigns the field F, with
value v, then the committed record has v as its F attribute (for a numeric field the integer
that `Atoi` reads from v), the record is stored under v when F is the key field, and the
earlier lines for F leave no trace: `Parse` returns the same map when they are deleted. -/
theorem Parse_last_occurrence_wins (pre s1 s2 : List String) (l F v : String)
    (fieldKey : String) (failOnDup : Bool) (hkey : fieldKey ∈ Fields) (hF : F ∈ Fields)
    (hpre : FreshAfter pre) (hs1 : ∀ x ∈ s1, x ≠ "") (hs2 : ∀ x ∈ s2, x ≠ "")
    (hm : matchField F l = some v) (hlast : ∀ x ∈ s2, matchField F x = none)
    (m : PackageMap)
    (h : Parse (pre ++ (s1 ++ l :: s2) ++ [""]) fieldKey failOnDup =
      { packages := some m, err := none }) :
    ∃ r, mapGet m (stanzaKey fieldKey (s1 ++ l :: s2)) = some r ∧
      (F ∈ textFields → textAttr F r = v) ∧
      (F ∈ numericFields → Atoi v = .ok (intAttr F r)) ∧
      (F = fieldKey → stanzaKey fieldKey (s1 ++ l :: s2) = v) ∧
      Parse (pre ++ (s1.filter (fun x => (matchField F x).isNone) ++ l :: s2) ++ [""])
        fieldKey failOnDup = { packages := some m, err := none } := by
  have hl : l ≠ "" := by
    intro h0
    subst h0
    rw [matchField_empty] at hm
    cases hm
  have hs : ∀ x ∈ s1 ++ l :: s2, x ≠ "" := by
    intro x hx
    rcases List.mem_append.mp hx with h1 | h1
    · exact hs1 x h1
    · rcases List.mem_cons.mp h1 with h2 | h2
      · rw [h2]; exact hl
      · exact hs2 x h2
  obtain ⟨m0, h0, hmm, hok, hdup⟩ := Parse_commit pre (s1 ++ l :: s2) fieldKey hkey failOnDup
    hpre hs m h
  have hv := fieldValues_last F s1 s2 l v hm hlast
  have hlok : lineNumericOK l = true := hok l (by simp)
  have hfilter : ∀ G ∈ Fields,
      (fieldValues G (s1.filter (fun x => (matchField F x).isNone) ++ l :: s2)).getLast? =
        (fieldValues G (s1 ++ l :: s2)).getLast? :=
    fun G hG => getLast_fieldValues_filter F G hF hG s1 s2 l v hm
  have hrec := stanzaRecord_congr _ _ hfilter
  have hkeyeq : stanzaKey fieldKey (s1.filter (fun x => (matchField F x).isNone) ++ l :: s2) =
      stanzaKey fieldKey (s1 ++ l :: s2) := by
    unfold stanzaKey lastValue
    rw [hfilter fieldKey hkey]
  refine ⟨stanzaRecord (s1 ++ l :: s2), ?_, ?_, ?_, ?_, ?_⟩
  · rw [hmm, mapGet_mapSet, if_pos rfl]
  · intro ht
    rw [stanzaRecord_text F ht]
    unfold lastValue
    rw [hv]
    rfl
  · intro hn
    rw [stanzaRecord_int F hn]
    unfold lastInt
    rw [hv]
    exact Atoi_of_lineNumericOK l hlok F hn v hm
  · intro hFk
    subst hFk
    unfold stanzaKey lastValue
    rw [hv]
    rfl
  · have hs' : ∀ x ∈ s1.filter (fun x => (matchField F x).isNone) ++ l :: s2, x ≠ "" := by
      intro x hx
      rcases List.mem_append.mp hx with h1 | h1
      · exact hs1 x (List.mem_filter.mp h1).1
      · exact hs x (List.mem_append_right _ h1)
    have hok' : ∀ x ∈ s1.filter (fun x => (matchField F x).isNone) ++ l :: s2,
        lineNumericOK x = true := by
      intro x hx
      rcases List.mem_append.mp hx with h1 | h1
      · exact hok x (List.mem_append_left _ (List.mem_filter.mp h1).1)
      · exact hok x (List.mem_append_right _ h1)
    rw [Parse_commit_forward pre _ fieldKey hkey failOnDup hpre hs' hok' m0 h0
      (by rw [hkeyeq]; exact hdup), hkeyeq, hrec, hmm]

theorem Parse_last_occurrence_wins_witness :
    ∃ r, mapGet [("b", { Package := "b", Version := "1", Size := 4 })]
        (stanzaKey "Package" (["Package: a", "Size: 4"] ++ "Package: b" :: ["Version: 1"])) =
          some r ∧
      ("Package" ∈ textFields → textAttr "Package" r = "b") ∧
      ("Package" ∈ numericFields → Atoi "b" = .ok (intAttr "Package" r)) ∧
      ("Package" = "Package" →
        stanzaKey "Package" (["Package: a", "Size: 4"] ++ "Package: b" :: ["Version: 1"]) =
          "b") ∧
      Parse ([] ++ (["Package: a", "Size: 4"].filter
          (fun x => (matchField "Package" x).isNone) ++ "Package: b" :: ["Version: 1"]) ++ [""])
        "Package" true =
          { packages := some [("b", { Package := "b", Version := "1", Size := 4 })],
            err := none } :=
  Parse_last_occurrence_wins [] ["Package: a", "Size: 4"] ["Version: 1"] "Package: b"
    "Package" "b" "Package" true (by decide) (by decide) (Or.inl rfl) (by decide) (by decide)
    (by decide) (by decide) _ (by decide)

end Debindices
